import Mathlib

/-!
# tree_builder: a shallow embedding of `builder/funcs.go` and `example.go`

Modelling conventions.

* `int64` identifiers are `Int`; the code only compares them, it never does
  arithmetic on them.
* A `*TR` that may be nil is an `Option TR`.
* `appendSubFunc` mutates its first argument in place.  Within one call of
  `BuildTree` every node pointer is used linearly by the builder (created by
  `rootFunc`, mutated at most once, then stored), so for a node constructor
  that returns new nodes the mutation is modelled by a function returning the
  updated parent.  For statements about two calls the same methods are also
  embedded over an explicit heap of nodes (`Ptr.subFunc`, `Ptr.BuildTree`),
  where a node constructor may return a node that is already in use; for a
  constructor that allocates, `freshBuilder_BuildTree` shows that the heap
  version computes the trees of the value version.
* Calls of the two injected functions are recorded in an explicit call log.
* `subFunc` is recursive and need not terminate on cyclic input; the model
  takes a recursion-depth budget (`fuel`) and returns `none` when the budget
  is exhausted.
-/

namespace TreeBuilder

/-- The record `DataEntity[T]` of `builder/funcs.go`. -/
structure DataEntity (T : Type) where
  Id : Int
  ParentId : Int
  Data : T
deriving DecidableEq, Repr

/-- The record `TreeBuiler[T, TR]` of `builder/funcs.go`. -/
structure TreeBuiler (T TR : Type) where
  dataEntities : List (DataEntity T)
  rootFunc : T → Option TR
  appendSubFunc : TR → List TR → TR

/-- One recorded invocation of an injected function during `BuildTree`. -/
inductive Call (T TR : Type) where
  | rootFunc (data : T)
  | appendSubFunc (parent : TR) (sub : List TR)
deriving DecidableEq, Repr

/-- The `for _, x := range dataEntities` loop of `NewTreeBuilder`: the first
component of the accumulator is `ret.dataEntities`, the second records the
arguments `initDataFunc` was called with. -/
def NewTreeBuilder.loop {T : Type} (initDataFunc : T → DataEntity T) :
    List T → List (DataEntity T) × List T → List (DataEntity T) × List T
  | [], acc => acc
  | x :: xs, acc =>
    NewTreeBuilder.loop initDataFunc xs (acc.1 ++ [initDataFunc x], acc.2 ++ [x])

/-- The function `NewTreeBuilder` together with the log of `initDataFunc` calls. -/
def NewTreeBuilderLogged {T TR : Type} (dataEntities : List T)
    (rootFunc : T → Option TR) (appendSubFunc : TR → List TR → TR)
    (initDataFunc : T → DataEntity T) : TreeBuiler T TR × List T :=
  let r := NewTreeBuilder.loop initDataFunc dataEntities ([], [])
  ({ dataEntities := r.1, rootFunc := rootFunc, appendSubFunc := appendSubFunc }, r.2)

/-- The function `NewTreeBuilder` of `builder/funcs.go`. -/
def NewTreeBuilder {T TR : Type} (dataEntities : List T)
    (rootFunc : T → Option TR) (appendSubFunc : TR → List TR → TR)
    (initDataFunc : T → DataEntity T) : TreeBuiler T TR :=
  (NewTreeBuilderLogged dataEntities rootFunc appendSubFunc initDataFunc).1

/-- The body of the `for` loop of `subFunc`, over the entities still to be
visited.  `recur` is the recursive call `self.subFunc`, `ret` the slice built
so far and `log` the calls made so far by this invocation. -/
def subFunc.loop {T TR : Type} (b : TreeBuiler T TR)
    (recur : Int → Option (List TR × List (Call T TR))) (parentId : Int) :
    List (DataEntity T) → List TR → List (Call T TR) →
      Option (List TR × List (Call T TR))
  | [], ret, log => some (ret, log)
  | x :: xs, ret, log =>
    if x.ParentId = parentId then
      match b.rootFunc x.Data with
      | none => subFunc.loop b recur parentId xs ret (log ++ [Call.rootFunc x.Data])
      | some sub =>
        match recur x.Id with
        | none => none
        | some (subs, l) =>
          if subs.length > 0 then
            subFunc.loop b recur parentId xs (ret ++ [b.appendSubFunc sub subs])
              (log ++ [Call.rootFunc x.Data] ++ l ++ [Call.appendSubFunc sub subs])
          else
            subFunc.loop b recur parentId xs (ret ++ [sub])
              (log ++ [Call.rootFunc x.Data] ++ l)
    else subFunc.loop b recur parentId xs ret log

/-- The method `subFunc` of `builder/funcs.go`, with a recursion budget.  The
result is the returned slice and the log of calls made. -/
def subFunc {T TR : Type} (b : TreeBuiler T TR) :
    Nat → Int → Option (List TR × List (Call T TR))
  | 0, _ => none
  | fuel + 1, parentId =>
    if b.dataEntities.length > 0 then
      subFunc.loop b (subFunc b fuel) parentId b.dataEntities [] []
    else some ([], [])

/-- The `for` loop of `BuildTree` over the entities still to be visited. -/
def BuildTree.loop {T TR : Type} (b : TreeBuiler T TR) (fuel : Nat) (rootId : Int) :
    List (DataEntity T) → Option (Option TR × List (Call T TR))
  | [] => some (none, [])
  | x :: xs =>
    if x.Id = rootId then
      match b.rootFunc x.Data with
      | none => some (none, [Call.rootFunc x.Data])
      | some root =>
        match subFunc b fuel x.Id with
        | none => none
        | some (subs, l) =>
          if subs.length > 0 then
            some (some (b.appendSubFunc root subs),
              [Call.rootFunc x.Data] ++ l ++ [Call.appendSubFunc root subs])
          else some (some root, [Call.rootFunc x.Data] ++ l)
    else BuildTree.loop b fuel rootId xs

/-- The method `BuildTree` of `builder/funcs.go`.  The outer `Option` is
`none` when the recursion budget of `subFunc` is exhausted; the inner one is
the possibly-nil `*TR`. -/
def BuildTree {T TR : Type} (b : TreeBuiler T TR) (fuel : Nat) (rootId : Int) :
    Option (Option TR × List (Call T TR)) :=
  if b.dataEntities.length > 0 then BuildTree.loop b fuel rootId b.dataEntities
  else some (none, [])

/-! ## The example program -/

/-- The record `ExampleData` of `example.go`. -/
structure ExampleData where
  Id : Int
  ParentId : Int
  Name : String
deriving DecidableEq, Repr

/-- The record `ExampleTree` of `example.go`. -/
inductive ExampleTree where
  | mk (Id : Int) (ParentId : Int) (Name : String) (Children : List ExampleTree)

/-- The slice `inArr` of `example.go`. -/
def inArr : List ExampleData :=
  [⟨1, 0, "01"⟩, ⟨2, 1, "01-02"⟩, ⟨3, 1, "01-03"⟩,
   ⟨4, 2, "01-02-04"⟩, ⟨5, 2, "01-02-05"⟩, ⟨6, 5, "01-02-05-06"⟩]

/-- The closure `rootFunc` of `example.go`. -/
def exampleRootFunc (data : ExampleData) : Option ExampleTree :=
  some (ExampleTree.mk data.Id data.ParentId data.Name [])

/-- The closure `appendSubFunc` of `example.go`. -/
def exampleAppendSubFunc : ExampleTree → List ExampleTree → ExampleTree
  | ExampleTree.mk i p n cs, sub => ExampleTree.mk i p n (cs ++ sub)

/-- The closure `initDataFunc` of `example.go`. -/
def exampleInitDataFunc (data : ExampleData) : DataEntity ExampleData :=
  { Id := data.Id, ParentId := data.ParentId, Data := data }

/-- The value `treeBuilder` of `example.go`. -/
def exampleTreeBuilder : TreeBuiler ExampleData ExampleTree :=
  NewTreeBuilder inArr exampleRootFunc exampleAppendSubFunc exampleInitDataFunc

/-- The tree the specification gives for `BuildTree(1)` on the example input. -/
def exampleExpected : ExampleTree :=
  .mk 1 0 "01"
    [ .mk 2 1 "01-02"
        [ .mk 4 2 "01-02-04" [],
          .mk 5 2 "01-02-05" [ .mk 6 5 "01-02-05-06" [] ] ],
      .mk 3 1 "01-03" [] ]

/-! ## Trees as nodes

To speak about the shape of the result the node type is instantiated with
rose trees whose label records the entity the node was built from, next to
whatever the node constructor produced for its payload. -/

/-- A rose tree: a node with a label and an ordered sequence of children. -/
inductive Tree (L : Type) where
  | node (label : L) (children : List (Tree L))

/-- The label of the top node. -/
def Tree.label {L : Type} : Tree L → L
  | .node l _ => l

/-- The children of the top node. -/
def Tree.children {L : Type} : Tree L → List (Tree L)
  | .node _ cs => cs

/-- Attachment by appending to the children, as `appendSubFunc` of `example.go` does. -/
def Tree.attach {L : Type} (parent : Tree L) (sub : List (Tree L)) : Tree L :=
  .node parent.label (parent.children ++ sub)

mutual
/-- All nodes of a tree (each given as the subtree below it), in pre-order. -/
def Tree.nodes {L : Type} : Tree L → List (Tree L)
  | .node l cs => .node l cs :: Tree.nodesList cs
/-- All nodes of a sequence of trees. -/
def Tree.nodesList {L : Type} : List (Tree L) → List (Tree L)
  | [] => []
  | c :: cs => Tree.nodes c ++ Tree.nodesList cs
end

mutual
/-- The attachment calls that assemble a tree bottom-up: one call per node
with a non-empty child sequence, in post-order, each with the childless node
as parent and all children at once. -/
def Tree.attachCalls {L : Type} : Tree L → List (Tree L × List (Tree L))
  | .node l cs =>
    Tree.attachCallsList cs ++ (if cs.length > 0 then [(.node l [], cs)] else [])
/-- The attachment calls for a sequence of trees, left to right. -/
def Tree.attachCallsList {L : Type} : List (Tree L) → List (Tree L × List (Tree L))
  | [] => []
  | c :: cs => Tree.attachCalls c ++ Tree.attachCallsList cs
end

/-- The attachment calls recorded in a call log, in order. -/
def attachments {T TR : Type} (log : List (Call T TR)) : List (TR × List TR) :=
  log.filterMap fun c =>
    match c with
    | Call.appendSubFunc p s => some (p, s)
    | Call.rootFunc _ => none

/-- The payloads the node constructor was called with, in order. -/
def constructions {T TR : Type} (log : List (Call T TR)) : List T :=
  log.filterMap fun c =>
    match c with
    | Call.rootFunc d => some d
    | Call.appendSubFunc _ _ => none

/-- The entity initializer that keeps the whole record as payload, as
`initDataFunc` of `example.go` does. -/
def selfEntity {T : Type} (e : DataEntity T) : DataEntity (DataEntity T) :=
  { Id := e.Id, ParentId := e.ParentId, Data := e }

/-- The builder over rose trees for the entity list `es` and the node
constructor `ctor`: each entity carries itself as payload, the node built
from entity `e` is the childless tree labelled `(e, l)` where `l` is what
`ctor` returned for the payload of `e`, and attachment appends children. -/
def treeBuilder {T L : Type} (es : List (DataEntity T)) (ctor : T → Option L) :
    TreeBuiler (DataEntity T) (Tree (DataEntity T × L)) :=
  NewTreeBuilder es
    (fun e => (ctor e.Data).map fun l => Tree.node (e, l) [])
    Tree.attach
    selfEntity

/-- The entity a node of a `treeBuilder` tree was built from. -/
def Tree.entity {T L : Type} (t : Tree (DataEntity T × L)) : DataEntity T :=
  t.label.1

/-- The entities represented by the nodes of a tree, in pre-order. -/
def Tree.entities {T L : Type} (t : Tree (DataEntity T × L)) : List (DataEntity T) :=
  t.nodes.map Tree.entity

/-- The parent-to-child edge between identifiers: some entity of the list has
parent id `p` and id `q`. -/
def Edge {T : Type} (es : List (DataEntity T)) (p q : Int) : Prop :=
  ∃ x ∈ es, x.ParentId = p ∧ x.Id = q

/-- The parent relation of an entity list has no cycle. -/
def Acyclic {T : Type} (es : List (DataEntity T)) : Prop :=
  ∀ i, ¬ Relation.TransGen (Edge es) i i

/-- Identifiers are unique within the entity list: entities of the list with
the same identifier are the same record.  (Weaker than `NodupIds`, which also
excludes a record occurring twice.) -/
def UniqueIds {T : Type} (es : List (DataEntity T)) : Prop :=
  ∀ a ∈ es, ∀ b ∈ es, a.Id = b.Id → a = b

/-- Entity `c` of the list is a child of entity `a`. -/
def Child {T : Type} (es : List (DataEntity T)) (a c : DataEntity T) : Prop :=
  c ∈ es ∧ c.ParentId = a.Id

/-- The labels of the nodes built from the entities with parent id `p` for
which the node constructor returned a node, in the order of the entity list. -/
def childLabels {T L : Type} (es : List (DataEntity T)) (ctor : T → Option L) (p : Int) :
    List (DataEntity T × L) :=
  es.filterMap fun e => if e.ParentId = p then (ctor e.Data).map (Prod.mk e) else none

/-- A node of a `treeBuilder` tree is as the builder makes it: it was built
from an entity of the list by the node constructor, and its children are the
nodes built from that entity's children, in list order. -/
def NodeOK {T L : Type} (es : List (DataEntity T)) (ctor : T → Option L)
    (s : Tree (DataEntity T × L)) : Prop :=
  s.entity ∈ es ∧ ctor s.entity.Data = some s.label.2 ∧
    s.children.map Tree.label = childLabels es ctor s.entity.Id

/-- Every node of the tree satisfies `NodeOK`. -/
def WellBuilt {T L : Type} (es : List (DataEntity T)) (ctor : T → Option L)
    (t : Tree (DataEntity T × L)) : Prop :=
  ∀ s ∈ t.nodes, NodeOK es ctor s

/-- What a terminated child assembly for parent id `p` over the entities `xs`
satisfies, `es` being the whole entity list. -/
def ResultOK {T L : Type} (es : List (DataEntity T)) (ctor : T → Option L)
    (xs : List (DataEntity T)) (p : Int)
    (r : List (Tree (DataEntity T × L)) ×
      List (Call (DataEntity T) (Tree (DataEntity T × L)))) : Prop :=
  r.1.map Tree.label = childLabels xs ctor p ∧
    (∀ t ∈ r.1, WellBuilt es ctor t) ∧
    attachments r.2 = Tree.attachCallsList r.1

/-- What one entity `x` that matches the parent id contributes to the result
of the loop of `subFunc`: nothing when the node constructor returns nil,
otherwise the node with its own children attached.  (The same steps build the
root in `BuildTree`.) -/
def subFunc.step {T TR : Type} (b : TreeBuiler T TR)
    (recur : Int → Option (List TR × List (Call T TR))) (x : DataEntity T) :
    Option (List TR × List (Call T TR)) :=
  match b.rootFunc x.Data with
  | none => some ([], [Call.rootFunc x.Data])
  | some sub =>
    match recur x.Id with
    | none => none
    | some (subs, l) =>
      if subs.length > 0 then
        some ([b.appendSubFunc sub subs],
          [Call.rootFunc x.Data] ++ l ++ [Call.appendSubFunc sub subs])
      else some ([sub], [Call.rootFunc x.Data] ++ l)

/-! ## Small builders used as concrete inputs -/

/-- A builder with a suppressed first match for id 1, a child of it, and a
later duplicate of id 1 that is not suppressed. -/
def dupBuilder : TreeBuiler Bool Nat :=
  { dataEntities := [⟨1, 0, false⟩, ⟨2, 1, true⟩, ⟨1, 0, true⟩]
    rootFunc := fun d => if d then some 7 else none
    appendSubFunc := fun p sub => p + sub.length }

/-- A builder with two entities of id 1, both producing a node, and a child. -/
def dupBuilder2 : TreeBuiler Nat Nat :=
  { dataEntities := [⟨1, 0, 10⟩, ⟨2, 1, 20⟩, ⟨1, 0, 30⟩]
    rootFunc := fun d => some d
    appendSubFunc := fun p sub => p + sub.length }

/-- Five entities: 1 is a root, 2 and 3 are children of 1, 4 is a child of 3
and 5 a child of 2.  The payload says whether `keepCtor` builds a node. -/
def smallEs : List (DataEntity Bool) :=
  [⟨1, 0, true⟩, ⟨2, 1, true⟩, ⟨3, 1, false⟩, ⟨4, 3, true⟩, ⟨5, 2, true⟩]

/-- A node constructor that returns nil for the payload `false`. -/
def keepCtor (d : Bool) : Option Unit :=
  if d then some () else none

/-- A node constructor that returns a node for every payload. -/
def allCtor (_ : Bool) : Option Unit :=
  some ()

/-- The tree of all five entities of `smallEs` below entity 1. -/
def smallTreeAll : Tree (DataEntity Bool × Unit) :=
  .node (⟨1, 0, true⟩, ())
    [ .node (⟨2, 1, true⟩, ()) [ .node (⟨5, 2, true⟩, ()) [] ],
      .node (⟨3, 1, false⟩, ()) [ .node (⟨4, 3, true⟩, ()) [] ] ]

/-- The tree below entity 1 of `smallEs` without entity 3 and its child. -/
def smallTreeKeep : Tree (DataEntity Bool × Unit) :=
  .node (⟨1, 0, true⟩, ())
    [ .node (⟨2, 1, true⟩, ()) [ .node (⟨5, 2, true⟩, ()) [] ] ]

/-- The calls `BuildTree(1)` makes on `smallEs` with `allCtor`, in order. -/
def smallLogAll : List (Call (DataEntity Bool) (Tree (DataEntity Bool × Unit))) :=
  [ Call.rootFunc ⟨1, 0, true⟩,
    Call.rootFunc ⟨2, 1, true⟩,
    Call.rootFunc ⟨5, 2, true⟩,
    Call.appendSubFunc (.node (⟨2, 1, true⟩, ()) []) [ .node (⟨5, 2, true⟩, ()) [] ],
    Call.rootFunc ⟨3, 1, false⟩,
    Call.rootFunc ⟨4, 3, true⟩,
    Call.appendSubFunc (.node (⟨3, 1, false⟩, ()) []) [ .node (⟨4, 3, true⟩, ()) [] ],
    Call.appendSubFunc (.node (⟨1, 0, true⟩, ()) [])
      [ .node (⟨2, 1, true⟩, ()) [ .node (⟨5, 2, true⟩, ()) [] ],
        .node (⟨3, 1, false⟩, ()) [ .node (⟨4, 3, true⟩, ()) [] ] ] ]

/-- The parent-to-child edge between identifiers along which `subFunc`
recurses: some entity of the builder has parent id `p` and id `q`, and the
node constructor returns a node for its payload. -/
def LiveEdge {T TR : Type} (b : TreeBuiler T TR) (p q : Int) : Prop :=
  ∃ x ∈ b.dataEntities, x.ParentId = p ∧ x.Id = q ∧ b.rootFunc x.Data ≠ none

/-- A builder whose only entity has id 0 and parent id 0, the sentinel. -/
def selfLoopBuilder : TreeBuiler Unit Nat :=
  { dataEntities := [⟨0, 0, ()⟩]
    rootFunc := fun _ => some 1
    appendSubFunc := fun p sub => p + sub.length }

/-- A builder in which entity 1 leads to the cycle 2 → 3 → 2. -/
def cycleBuilder : TreeBuiler Unit Nat :=
  { dataEntities := [⟨1, 0, ()⟩, ⟨2, 1, ()⟩, ⟨3, 2, ()⟩, ⟨2, 3, ()⟩]
    rootFunc := fun _ => some 1
    appendSubFunc := fun p sub => p + sub.length }

/-- No identifier occurs twice in the entity list. -/
def NodupIds {T : Type} (es : List (DataEntity T)) : Prop :=
  (es.map DataEntity.Id).Nodup

/-- What a terminated child assembly for parent id `p` over the entities `xs`
satisfies with respect to node-constructor calls, `es` being the whole entity
list: the entities of the result occur, in order, among the constructor
calls; every constructor call is for an entity of `xs` with parent id `p` or
one of its descendants; and no entity gets two calls. -/
def VisitOK {T L : Type} (es : List (DataEntity T))
    (xs : List (DataEntity T)) (p : Int)
    (r : List (Tree (DataEntity T × L)) ×
      List (Call (DataEntity T) (Tree (DataEntity T × L)))) : Prop :=
  List.Sublist ((Tree.nodesList r.1).map Tree.entity) (constructions r.2) ∧
    (∀ y ∈ constructions r.2, ∃ x ∈ xs, x.ParentId = p ∧
      Relation.ReflTransGen (Child es) x y) ∧
    (constructions r.2).Nodup

/-! ## The builder over a heap of nodes

The nodes of the result are `*TR` pointers, and `appendSubFunc` writes
through its first argument.  To speak about two calls of `BuildTree`, where
nodes of the first call may be reached again by the second, the node type is
instantiated with addresses into an explicit heap of tree nodes, and the two
injected functions read and write that heap. -/

/-- A heap of tree nodes: the node at address `a` is entry `a`, a label with
the addresses of its children (as `Children []*ExampleTree` in `example.go`). -/
abbrev Heap (L : Type) := List (L × List Nat)

/-- The record `TreeBuiler[T, TR]` of `builder/funcs.go` with `*TR` an address
into a heap: `rootFunc` returns an address or nil and the heap after the call,
`appendSubFunc` returns the heap after the call. -/
structure Ptr.TreeBuiler (T L : Type) where
  dataEntities : List (DataEntity T)
  rootFunc : T → Heap L → Option Nat × Heap L
  appendSubFunc : Nat → List Nat → Heap L → Heap L

/-- The closure `appendSubFunc` of `example.go` on the heap: the children of
the node at address `parent` get `sub` appended.  (No node at `parent`: the
heap is left as it is; the builder never attaches to such an address.) -/
def Heap.attach {L : Type} (parent : Nat) (sub : List Nat) (h : Heap L) : Heap L :=
  match h[parent]? with
  | some (l, cs) => h.set parent (l, cs ++ sub)
  | none => h

/-- The body of the `for` loop of `subFunc` on the heap: `recur` is the
recursive call, `ret` the slice of addresses built so far, `h` the heap. -/
def Ptr.subFunc.loop {T L : Type} (b : Ptr.TreeBuiler T L)
    (recur : Int → Heap L → Option (List Nat × Heap L)) (parentId : Int) :
    List (DataEntity T) → List Nat → Heap L → Option (List Nat × Heap L)
  | [], ret, h => some (ret, h)
  | x :: xs, ret, h =>
    if x.ParentId = parentId then
      match b.rootFunc x.Data h with
      | (none, h1) => Ptr.subFunc.loop b recur parentId xs ret h1
      | (some sub, h1) =>
        match recur x.Id h1 with
        | none => none
        | some (subs, h2) =>
          if subs.length > 0 then
            Ptr.subFunc.loop b recur parentId xs (ret ++ [sub]) (b.appendSubFunc sub subs h2)
          else
            Ptr.subFunc.loop b recur parentId xs (ret ++ [sub]) h2
    else Ptr.subFunc.loop b recur parentId xs ret h

/-- The method `subFunc` of `builder/funcs.go` on the heap, with a recursion
budget: the returned slice of addresses and the heap after the call. -/
def Ptr.subFunc {T L : Type} (b : Ptr.TreeBuiler T L) :
    Nat → Int → Heap L → Option (List Nat × Heap L)
  | 0, _, _ => none
  | fuel + 1, parentId, h =>
    if b.dataEntities.length > 0 then
      Ptr.subFunc.loop b (Ptr.subFunc b fuel) parentId b.dataEntities [] h
    else some ([], h)

/-- The `for` loop of `BuildTree` on the heap. -/
def Ptr.BuildTree.loop {T L : Type} (b : Ptr.TreeBuiler T L) (fuel : Nat) (rootId : Int)
    (h : Heap L) : List (DataEntity T) → Option (Option Nat × Heap L)
  | [] => some (none, h)
  | x :: xs =>
    if x.Id = rootId then
      match b.rootFunc x.Data h with
      | (none, h1) => some (none, h1)
      | (some root, h1) =>
        match Ptr.subFunc b fuel x.Id h1 with
        | none => none
        | some (subs, h2) =>
          if subs.length > 0 then some (some root, b.appendSubFunc root subs h2)
          else some (some root, h2)
    else Ptr.BuildTree.loop b fuel rootId h xs

/-- The method `BuildTree` of `builder/funcs.go` on the heap: the returned
address (or nil) and the heap after the call; `none` when the recursion budget
is exhausted.  The builder itself is never written. -/
def Ptr.BuildTree {T L : Type} (b : Ptr.TreeBuiler T L) (fuel : Nat) (rootId : Int)
    (h : Heap L) : Option (Option Nat × Heap L) :=
  if b.dataEntities.length > 0 then Ptr.BuildTree.loop b fuel rootId h b.dataEntities
  else some (none, h)

mutual
/-- The node at address `a` of heap `h`, with everything below it, is the tree
`t`, and all its nodes have addresses of at least `m`. -/
def Reifies {L : Type} (m : Nat) (h : Heap L) : Tree L → Nat → Prop
  | .node l ts, a => m ≤ a ∧ ∃ cs, h[a]? = some (l, cs) ∧ ReifiesList m h ts cs
/-- The addresses `cs` are, one by one, the trees `ts`. -/
def ReifiesList {L : Type} (m : Nat) (h : Heap L) : List (Tree L) → List Nat → Prop
  | [], cs => cs = []
  | t :: ts, cs => ∃ c cs2, cs = c :: cs2 ∧ Reifies m h t c ∧ ReifiesList m h ts cs2
end

/-- Every node of `h` is still there, unchanged, in `h2`. -/
def Heap.Extends {L : Type} (h h2 : Heap L) : Prop :=
  ∀ (a : Nat) (x : L × List Nat), h[a]? = some x → h2[a]? = some x

/-- A builder on the heap whose node constructor allocates a fresh childless
node for each payload that `ctor` gives a label, and whose attachment appends
children, as the two closures of `example.go` do. -/
def freshBuilder {T L : Type} (es : List (DataEntity T)) (ctor : T → Option L) :
    Ptr.TreeBuiler T L :=
  { dataEntities := es
    rootFunc := fun d h =>
      match ctor d with
      | none => (none, h)
      | some l => (some h.length, h ++ [(l, [])])
    appendSubFunc := Heap.attach }

/-- The same builder with nodes as values: the constructor returns a childless
tree and attachment appends children. -/
def valueBuilder {T L : Type} (es : List (DataEntity T)) (ctor : T → Option L) :
    TreeBuiler T (Tree L) :=
  { dataEntities := es
    rootFunc := fun d => (ctor d).map fun l => Tree.node l []
    appendSubFunc := Tree.attach }

/-- A builder on the heap whose node constructor returns the node stored in
the payload: it reads nothing, writes nothing and returns the same address for
the same payload. -/
def aliasBuilder : Ptr.TreeBuiler Nat String :=
  { dataEntities := [⟨1, 0, 0⟩, ⟨2, 1, 1⟩]
    rootFunc := fun d h => (some d, h)
    appendSubFunc := Heap.attach }

/-- A heap with two childless nodes, at addresses 0 and 1. -/
def aliasHeap0 : Heap String :=
  [("n1", []), ("n2", [])]

/-- The heap `aliasHeap0` after one `BuildTree(1)` of `aliasBuilder`. -/
def aliasHeap1 : Heap String :=
  [("n1", [1]), ("n2", [])]

/-- The heap `aliasHeap0` after two `BuildTree(1)` of `aliasBuilder`. -/
def aliasHeap2 : Heap String :=
  [("n1", [1, 1]), ("n2", [])]


/-- The run of the child assembly on the heap, started in heap `h`, does what
the run with nodes as values does: it returns when that one returns, keeps
every node of `h`, and the addresses it returns are the trees returned there,
built from nodes with addresses of at least `h0.length`. -/
def Simulates {T L : Type} (h0 : Heap L)
    (v : Option (List (Tree L) × List (Call T (Tree L))))
    (p : Option (List Nat × Heap L)) (h : Heap L) : Prop :=
  match v with
  | none => p = none
  | some (ts, _) =>
    ∃ cs h2, p = some (cs, h2) ∧ Heap.Extends h h2 ∧ ReifiesList h0.length h2 ts cs


/-- A node constructor for the records of `example.go` that labels the node
with the record's name. -/
def nameCtor (d : ExampleData) : Option String :=
  some d.Name

/-- The heap after `BuildTree(1)` of `freshBuilder` on the records of
`example.go`, started in the empty heap: one node per record, in the order
the node constructor was called. -/
def exampleHeap1 : Heap String :=
  [("01", [1, 5]), ("01-02", [2, 3]), ("01-02-04", []), ("01-02-05", [4]),
   ("01-02-05-06", []), ("01-03", [])]


/-! ## Construction -/

theorem NewTreeBuilder.loop_eq {T : Type} (f : T → DataEntity T) (xs : List T)
    (acc : List (DataEntity T) × List T) :
    NewTreeBuilder.loop f xs acc = (acc.1 ++ xs.map f, acc.2 ++ xs) := by
  induction xs generalizing acc with
  | nil => simp [NewTreeBuilder.loop]
  | cons x xs ih => simp [NewTreeBuilder.loop, ih]

theorem NewTreeBuilder_dataEntities {T TR : Type} (items : List T)
    (rootFunc : T → Option TR) (appendSubFunc : TR → List TR → TR)
    (f : T → DataEntity T) :
    (NewTreeBuilder items rootFunc appendSubFunc f).dataEntities = items.map f := by
  simp [NewTreeBuilder, NewTreeBuilderLogged, NewTreeBuilder.loop_eq]

/-! ## Root lookup -/

theorem BuildTree.loop_not_found {T TR : Type} (b : TreeBuiler T TR) (fuel : Nat)
    (r : Int) (xs : List (DataEntity T)) (h : ∀ e ∈ xs, e.Id ≠ r) :
    BuildTree.loop b fuel r xs = some (none, []) := by
  induction xs with
  | nil => rfl
  | cons x xs ih =>
    have hx : x.Id ≠ r := h x (List.mem_cons_self _ _)
    simp only [BuildTree.loop, if_neg hx]
    exact ih fun e he => h e (List.mem_cons_of_mem _ he)

theorem BuildTree.loop_found {T TR : Type} (b : TreeBuiler T TR) (fuel : Nat)
    (r : Int) (xs : List (DataEntity T)) (x : DataEntity T)
    (h : xs.find? (fun e => decide (e.Id = r)) = some x) :
    BuildTree.loop b fuel r xs = BuildTree.loop b fuel r [x] := by
  induction xs with
  | nil => simp at h
  | cons y ys ih =>
    by_cases hy : y.Id = r
    · have hyx : y = x := by simpa [List.find?, hy] using h
      subst hyx
      simp [BuildTree.loop, hy]
    · have h2 : ys.find? (fun e => decide (e.Id = r)) = some x := by
        simpa [List.find?, hy] using h
      simp only [BuildTree.loop, if_neg hy]
      rw [ih h2]
      have hx : x.Id = r := by simpa using List.find?_some h2
      simp [BuildTree.loop, hx]

theorem BuildTree_of_find {T TR : Type} (b : TreeBuiler T TR) (fuel : Nat)
    (r : Int) (x : DataEntity T)
    (h : b.dataEntities.find? (fun e => decide (e.Id = r)) = some x) :
    BuildTree b fuel r = BuildTree.loop b fuel r [x] := by
  have hne : b.dataEntities.length > 0 := by
    cases hd : b.dataEntities with
    | nil => simp [hd] at h
    | cons _ _ => simp
  simp only [BuildTree, if_pos hne]
  exact BuildTree.loop_found b fuel r _ x h

theorem BuildTree_of_find_none {T TR : Type} (b : TreeBuiler T TR) (fuel : Nat)
    (r : Int) (h : b.dataEntities.find? (fun e => decide (e.Id = r)) = none) :
    BuildTree b fuel r = some (none, []) := by
  unfold BuildTree
  split
  · apply BuildTree.loop_not_found
    intro e he
    simpa using List.find?_eq_none.1 h e he
  · rfl

/-! ## The loop of `subFunc` -/

theorem subFunc.loop_acc {T TR : Type} (b : TreeBuiler T TR)
    (recur : Int → Option (List TR × List (Call T TR))) (p : Int)
    (xs : List (DataEntity T)) (ret : List TR) (log : List (Call T TR)) :
    subFunc.loop b recur p xs ret log =
      (subFunc.loop b recur p xs [] []).map fun r => (ret ++ r.1, log ++ r.2) := by
  induction xs generalizing ret log with
  | nil => simp [subFunc.loop]
  | cons x xs ih =>
    simp only [subFunc.loop]
    split
    · split
      · rw [ih, ih [] ([] ++ _)]
        simp [Option.map_map, Function.comp_def]
      · split
        · rfl
        · split
          · rw [ih, ih ([] ++ _) ([] ++ _ ++ _ ++ _)]
            simp [Option.map_map, Function.comp_def]
          · rw [ih, ih ([] ++ _) ([] ++ _ ++ _)]
            simp [Option.map_map, Function.comp_def]
    · exact ih ret log

theorem subFunc.loop_cons {T TR : Type} (b : TreeBuiler T TR)
    (recur : Int → Option (List TR × List (Call T TR))) (p : Int)
    (x : DataEntity T) (xs : List (DataEntity T)) :
    subFunc.loop b recur p (x :: xs) [] [] =
      if x.ParentId = p then
        match subFunc.step b recur x with
        | none => none
        | some r1 =>
          (subFunc.loop b recur p xs [] []).map fun r2 => (r1.1 ++ r2.1, r1.2 ++ r2.2)
      else subFunc.loop b recur p xs [] [] := by
  simp only [subFunc.loop, subFunc.step]
  split
  · split
    · rw [subFunc.loop_acc]
      simp
    · split
      · rfl
      · split
        · rw [subFunc.loop_acc]
          simp
        · rw [subFunc.loop_acc]
          simp
  · rfl

theorem BuildTree.loop_single {T TR : Type} (b : TreeBuiler T TR) (fuel : Nat)
    (x : DataEntity T) :
    BuildTree.loop b fuel x.Id [x] =
      (subFunc.step b (subFunc b fuel) x).map fun r => (r.1.head?, r.2) := by
  simp only [BuildTree.loop, subFunc.step, if_true]
  split
  · rfl
  · split
    · rfl
    · split <;> simp

/-! ## A larger recursion budget does not change a result -/

theorem subFunc.step_mono {T TR : Type} (b : TreeBuiler T TR)
    (recur recur' : Int → Option (List TR × List (Call T TR)))
    (h : ∀ i r, recur i = some r → recur' i = some r) (x : DataEntity T)
    (r : List TR × List (Call T TR)) (hr : subFunc.step b recur x = some r) :
    subFunc.step b recur' x = some r := by
  unfold subFunc.step at hr ⊢
  cases hn : b.rootFunc x.Data with
  | none => simpa [hn] using hr
  | some n =>
    simp only [hn] at hr ⊢
    cases hrec : recur x.Id with
    | none => simp [hrec] at hr
    | some q =>
      rw [h _ _ hrec]
      simpa [hrec] using hr

theorem subFunc.loop_mono {T TR : Type} (b : TreeBuiler T TR)
    (recur recur' : Int → Option (List TR × List (Call T TR)))
    (h : ∀ i r, recur i = some r → recur' i = some r) (p : Int)
    (xs : List (DataEntity T)) (r : List TR × List (Call T TR))
    (hr : subFunc.loop b recur p xs [] [] = some r) :
    subFunc.loop b recur' p xs [] [] = some r := by
  induction xs generalizing r with
  | nil => simpa [subFunc.loop] using hr
  | cons x xs ih =>
    rw [subFunc.loop_cons] at hr ⊢
    by_cases hp : x.ParentId = p
    · simp only [if_pos hp] at hr ⊢
      cases hs : subFunc.step b recur x with
      | none => simp [hs] at hr
      | some r1 =>
        rw [subFunc.step_mono b recur recur' h x r1 hs]
        simp only [hs] at hr
        cases hl : subFunc.loop b recur p xs [] [] with
        | none => simp [hl] at hr
        | some r2 =>
          rw [ih r2 hl]
          simpa [hl] using hr
    · simp only [if_neg hp] at hr ⊢
      exact ih r hr

theorem subFunc_succ_mono {T TR : Type} (b : TreeBuiler T TR) (fuel : Nat) :
    ∀ (p : Int) (r : List TR × List (Call T TR)),
      subFunc b fuel p = some r → subFunc b (fuel + 1) p = some r := by
  induction fuel with
  | zero => intro p r h; simp [subFunc] at h
  | succ n ih =>
    intro p r h
    unfold subFunc at h ⊢
    split
    · rename_i hlen
      rw [if_pos hlen] at h
      exact subFunc.loop_mono b _ _ ih p _ r h
    · rename_i hlen
      rw [if_neg hlen] at h
      exact h

theorem subFunc_mono {T TR : Type} (b : TreeBuiler T TR) (fuel fuel' : Nat)
    (hle : fuel ≤ fuel') (p : Int) (r : List TR × List (Call T TR))
    (h : subFunc b fuel p = some r) : subFunc b fuel' p = some r := by
  induction hle with
  | refl => exact h
  | step _ ih => exact subFunc_succ_mono b _ p r ih

theorem BuildTree.loop_fuel_mono {T TR : Type} (b : TreeBuiler T TR) (fuel fuel' : Nat)
    (hle : fuel ≤ fuel') (rootId : Int) (xs : List (DataEntity T))
    (r : Option TR × List (Call T TR))
    (h : BuildTree.loop b fuel rootId xs = some r) :
    BuildTree.loop b fuel' rootId xs = some r := by
  induction xs with
  | nil => simpa [BuildTree.loop] using h
  | cons x xs ih =>
    simp only [BuildTree.loop] at h ⊢
    by_cases hx : x.Id = rootId
    · simp only [if_pos hx] at h ⊢
      cases hn : b.rootFunc x.Data with
      | none => simpa [hn] using h
      | some n =>
        simp only [hn] at h ⊢
        cases hs : subFunc b fuel x.Id with
        | none => simp [hs] at h
        | some q =>
          rw [subFunc_mono b fuel fuel' hle _ q hs]
          simpa [hs] using h
    · simp only [if_neg hx] at h ⊢
      exact ih h

theorem BuildTree_mono {T TR : Type} (b : TreeBuiler T TR) (fuel fuel' : Nat)
    (hle : fuel ≤ fuel') (rootId : Int) (r : Option TR × List (Call T TR))
    (h : BuildTree b fuel rootId = some r) : BuildTree b fuel' rootId = some r := by
  unfold BuildTree at h ⊢
  split
  · rename_i hlen
    rw [if_pos hlen] at h
    exact BuildTree.loop_fuel_mono b fuel fuel' hle rootId _ r h
  · rename_i hlen
    rw [if_neg hlen] at h
    exact h

/-! ## Termination on acyclic input -/

theorem Edge.mem_ids {T : Type} {es : List (DataEntity T)} {p q : Int}
    (h : Edge es p q) : q ∈ es.map DataEntity.Id := by
  obtain ⟨x, hx, _, hq⟩ := h
  exact List.mem_map.2 ⟨x, hx, hq⟩

theorem Acyclic.wellFounded {T : Type} {es : List (DataEntity T)} (h : Acyclic es) :
    WellFounded (Function.swap (Edge es)) := by
  let S := { i : Int // i ∈ (es.map DataEntity.Id).toFinset }
  let rS : S → S → Prop := fun a b => Relation.TransGen (Function.swap (Edge es)) a.1 b.1
  haveI : IsTrans S rS := ⟨fun _ _ _ hab hbc => Relation.TransGen.trans hab hbc⟩
  haveI : IsIrrefl S rS := ⟨fun a haa => h a.1 (Relation.transGen_swap.1 haa)⟩
  have wfS : WellFounded rS := Finite.wellFounded_of_trans_of_irrefl rS
  have accS : ∀ s : S, Acc (Function.swap (Edge es)) s.1 := by
    intro s
    induction s using wfS.induction with
    | _ s ih =>
      refine Acc.intro _ fun q hq => ?_
      have hmem : q ∈ (es.map DataEntity.Id).toFinset := List.mem_toFinset.2 (Edge.mem_ids hq)
      exact ih ⟨q, hmem⟩ (Relation.TransGen.single hq)
  refine ⟨fun p => Acc.intro _ fun q hq => ?_⟩
  have hmem : q ∈ (es.map DataEntity.Id).toFinset := List.mem_toFinset.2 (Edge.mem_ids hq)
  exact accS ⟨q, hmem⟩

theorem subFunc.step_total {T TR : Type} (b : TreeBuiler T TR)
    (recur : Int → Option (List TR × List (Call T TR))) (x : DataEntity T)
    (h : ∃ r, recur x.Id = some r) : ∃ r, subFunc.step b recur x = some r := by
  obtain ⟨r, hr⟩ := h
  unfold subFunc.step
  cases b.rootFunc x.Data with
  | none => exact ⟨_, rfl⟩
  | some n =>
    simp only [hr]
    split <;> exact ⟨_, rfl⟩

theorem subFunc.loop_total {T TR : Type} (b : TreeBuiler T TR) (p : Int)
    (xs : List (DataEntity T))
    (h : ∀ x ∈ xs, x.ParentId = p → ∃ n r, subFunc b n x.Id = some r) :
    ∃ n r, subFunc.loop b (subFunc b n) p xs [] [] = some r := by
  induction xs with
  | nil => exact ⟨0, _, rfl⟩
  | cons x xs ih =>
    obtain ⟨n1, r1, h1⟩ := ih fun y hy => h y (List.mem_cons_of_mem _ hy)
    by_cases hp : x.ParentId = p
    · obtain ⟨n2, r2, h2⟩ := h x (List.mem_cons_self _ _) hp
      have hx : ∃ r, subFunc b (max n1 n2) x.Id = some r :=
        ⟨r2, subFunc_mono b n2 _ (le_max_right _ _) _ _ h2⟩
      obtain ⟨rs, hrs⟩ := subFunc.step_total b (subFunc b (max n1 n2)) x hx
      have hl := subFunc.loop_mono b (subFunc b n1) (subFunc b (max n1 n2))
        (fun i r hi => subFunc_mono b n1 _ (le_max_left _ _) i r hi) p xs r1 h1
      refine ⟨max n1 n2, (rs.1 ++ r1.1, rs.2 ++ r1.2), ?_⟩
      rw [subFunc.loop_cons, if_pos hp, hrs, hl]
      rfl
    · refine ⟨n1, r1, ?_⟩
      rw [subFunc.loop_cons, if_neg hp]
      exact h1

theorem subFunc_terminates {T TR : Type} (b : TreeBuiler T TR)
    (hac : Acyclic b.dataEntities) (p : Int) : ∃ n r, subFunc b n p = some r := by
  induction p using hac.wellFounded.induction with
  | _ p ih =>
    have hch : ∀ x ∈ b.dataEntities, x.ParentId = p → ∃ n r, subFunc b n x.Id = some r :=
      fun x hx hp => ih x.Id ⟨x, hx, hp, rfl⟩
    obtain ⟨n, r, hr⟩ := subFunc.loop_total b p b.dataEntities hch
    by_cases hlen : b.dataEntities.length > 0
    · exact ⟨n + 1, r, by simp only [subFunc, if_pos hlen, hr]⟩
    · exact ⟨1, ([], []), by simp only [subFunc, if_neg hlen]⟩

theorem BuildTree_terminates {T TR : Type} (b : TreeBuiler T TR)
    (hac : Acyclic b.dataEntities) (rootId : Int) :
    ∃ n r, ∀ fuel, n ≤ fuel → BuildTree b fuel rootId = some r := by
  suffices h : ∃ n r, BuildTree b n rootId = some r by
    obtain ⟨n, r, hr⟩ := h
    exact ⟨n, r, fun fuel hle => BuildTree_mono b n fuel hle rootId r hr⟩
  cases hfind : b.dataEntities.find? (fun e => decide (e.Id = rootId)) with
  | none => exact ⟨0, _, BuildTree_of_find_none b 0 rootId hfind⟩
  | some x =>
    have hx : x.Id = rootId := by simpa using List.find?_some hfind
    obtain ⟨n, r, hr⟩ := subFunc_terminates b hac x.Id
    obtain ⟨rs, hrs⟩ := subFunc.step_total b (subFunc b n) x ⟨r, hr⟩
    refine ⟨n, (rs.1.head?, rs.2), ?_⟩
    rw [BuildTree_of_find b n rootId x hfind, ← hx, BuildTree.loop_single, hrs]
    rfl

/-! ## Rose trees -/

theorem Tree.ind {L : Type} {P : Tree L → Prop}
    (h : ∀ l cs, (∀ c ∈ cs, P c) → P (Tree.node l cs)) (t : Tree L) : P t :=
  @Tree.rec L P (fun cs => ∀ c ∈ cs, P c)
    (fun l cs ih => h l cs ih)
    (fun c hc => absurd hc (List.not_mem_nil c))
    (fun c cs ihc ihcs x hx => by
      rcases List.mem_cons.1 hx with rfl | hx
      · exact ihc
      · exact ihcs x hx)
    t

theorem Tree.mem_nodesList {L : Type} (s : Tree L) (cs : List (Tree L)) :
    s ∈ Tree.nodesList cs ↔ ∃ c ∈ cs, s ∈ c.nodes := by
  induction cs with
  | nil => simp [Tree.nodesList]
  | cons c cs ih => simp [Tree.nodesList, ih]

theorem Tree.mem_nodes_node {L : Type} (s : Tree L) (l : L) (cs : List (Tree L)) :
    s ∈ (Tree.node l cs).nodes ↔ s = Tree.node l cs ∨ ∃ c ∈ cs, s ∈ c.nodes := by
  simp [Tree.nodes, Tree.mem_nodesList]

theorem Tree.self_mem_nodes {L : Type} (t : Tree L) : t ∈ t.nodes := by
  cases t with
  | node l cs => simp [Tree.nodes]

theorem Tree.mem_nodes_of_child {L : Type} (t : Tree L) :
    ∀ s ∈ t.nodes, ∀ c ∈ s.children, c ∈ t.nodes := by
  induction t using Tree.ind with
  | h l cs ih =>
    intro s hs c hc
    rw [Tree.mem_nodes_node] at hs ⊢
    rcases hs with rfl | ⟨d, hd, hsd⟩
    · exact Or.inr ⟨c, hc, Tree.self_mem_nodes c⟩
    · exact Or.inr ⟨d, hd, ih d hd s hsd c hc⟩

theorem Tree.parent_of_mem_nodes {L : Type} (t : Tree L) :
    ∀ s ∈ t.nodes, s = t ∨ ∃ q ∈ t.nodes, s ∈ q.children := by
  induction t using Tree.ind with
  | h l cs ih =>
    intro s hs
    rcases (Tree.mem_nodes_node s l cs).1 hs with rfl | ⟨d, hd, hsd⟩
    · exact Or.inl rfl
    · right
      rcases ih d hd s hsd with rfl | ⟨q, hq, hsq⟩
      · exact ⟨Tree.node l cs, Tree.self_mem_nodes _, hd⟩
      · exact ⟨q, (Tree.mem_nodes_node q l cs).2 (Or.inr ⟨d, hd, hq⟩), hsq⟩

theorem mem_childLabels {T L : Type} (es : List (DataEntity T)) (ctor : T → Option L)
    (p : Int) (x : DataEntity T × L) :
    x ∈ childLabels es ctor p ↔ x.1 ∈ es ∧ x.1.ParentId = p ∧ ctor x.1.Data = some x.2 := by
  obtain ⟨e, l⟩ := x
  simp only [childLabels, List.mem_filterMap]
  constructor
  · rintro ⟨a, ha, h⟩
    by_cases hp : a.ParentId = p
    · simp only [if_pos hp, Option.map_eq_some'] at h
      obtain ⟨l2, hl2, heq⟩ := h
      simp only [Prod.mk.injEq] at heq
      obtain ⟨rfl, rfl⟩ := heq
      exact ⟨ha, hp, hl2⟩
    · simp [if_neg hp] at h
  · rintro ⟨he, hp, hl⟩
    exact ⟨e, he, by simp [hp, hl]⟩

/-! ## The builder over rose trees -/

theorem treeBuilder_dataEntities {T L : Type} (es : List (DataEntity T))
    (ctor : T → Option L) : (treeBuilder es ctor).dataEntities = es.map selfEntity :=
  NewTreeBuilder_dataEntities _ _ _ _

theorem attachments_append {T TR : Type} (l1 l2 : List (Call T TR)) :
    attachments (l1 ++ l2) = attachments l1 ++ attachments l2 := by
  simp [attachments, List.filterMap_append]

theorem treeBuilder_step {T L : Type} (es : List (DataEntity T)) (ctor : T → Option L)
    (recur : Int → Option (List (Tree (DataEntity T × L)) ×
      List (Call (DataEntity T) (Tree (DataEntity T × L)))))
    (e : DataEntity T)
    (r : List (Tree (DataEntity T × L)) ×
      List (Call (DataEntity T) (Tree (DataEntity T × L))))
    (h : subFunc.step (treeBuilder es ctor) recur (selfEntity e) = some r) :
    (ctor e.Data = none ∧ r = ([], [Call.rootFunc e])) ∨
    ∃ l subs lg, ctor e.Data = some l ∧ recur e.Id = some (subs, lg) ∧
      r = ([Tree.node (e, l) subs],
        [Call.rootFunc e] ++ lg ++
          (if subs.length > 0 then [Call.appendSubFunc (Tree.node (e, l) []) subs]
           else [])) := by
  unfold subFunc.step at h
  have hroot : (treeBuilder es ctor).rootFunc (selfEntity e).Data =
      (ctor e.Data).map fun l => Tree.node (e, l) [] := rfl
  have happ : (treeBuilder es ctor).appendSubFunc = Tree.attach := rfl
  rw [hroot, happ] at h
  cases hc : ctor e.Data with
  | none =>
    left
    simp only [hc, Option.map_none'] at h
    exact ⟨rfl, (Option.some.inj h).symm⟩
  | some l =>
    right
    simp only [hc, Option.map_some'] at h
    have hid : (selfEntity e).Id = e.Id := rfl
    rw [hid] at h
    cases hrec : recur e.Id with
    | none => simp [hrec] at h
    | some q =>
      obtain ⟨subs, lg⟩ := q
      simp only [hrec] at h
      refine ⟨l, subs, lg, rfl, rfl, ?_⟩
      by_cases hlen : subs.length > 0
      · simp only [if_pos hlen] at h ⊢
        rw [← Option.some.inj h]
        simp [Tree.attach, Tree.label, Tree.children, selfEntity]
      · simp only [if_neg hlen] at h ⊢
        have hnil : subs = [] := by
          cases subs with
          | nil => rfl
          | cons a as => simp at hlen
        rw [← Option.some.inj h]
        simp [hnil, selfEntity]

theorem WellBuilt_node {T L : Type} (es : List (DataEntity T)) (ctor : T → Option L)
    (e : DataEntity T) (l : L) (subs : List (Tree (DataEntity T × L)))
    (he : e ∈ es) (hl : ctor e.Data = some l)
    (hsubs : subs.map Tree.label = childLabels es ctor e.Id)
    (hwb : ∀ t ∈ subs, WellBuilt es ctor t) :
    WellBuilt es ctor (Tree.node (e, l) subs) := by
  intro s hs
  rcases (Tree.mem_nodes_node s _ _).1 hs with rfl | ⟨c, hc, hsc⟩
  · exact ⟨he, hl, hsubs⟩
  · exact hwb c hc s hsc

theorem treeBuilder_loop {T L : Type} (es : List (DataEntity T)) (ctor : T → Option L)
    (recur : Int → Option (List (Tree (DataEntity T × L)) ×
      List (Call (DataEntity T) (Tree (DataEntity T × L)))))
    (hrec : ∀ p r, recur p = some r → ResultOK es ctor es p r) (p : Int)
    (xs : List (DataEntity T)) (hxs : ∀ x ∈ xs, x ∈ es) :
    ∀ r, subFunc.loop (treeBuilder es ctor) recur p (xs.map selfEntity) [] [] = some r →
      ResultOK es ctor xs p r := by
  induction xs with
  | nil =>
    intro r h
    simp only [List.map_nil, subFunc.loop, Option.some.injEq] at h
    subst h
    simp [ResultOK, childLabels, attachments, Tree.attachCallsList]
  | cons x xs ih =>
    intro r h
    have ih2 := ih fun y hy => hxs y (List.mem_cons_of_mem _ hy)
    rw [List.map_cons, subFunc.loop_cons] at h
    have hpid : (selfEntity x).ParentId = x.ParentId := rfl
    rw [hpid] at h
    by_cases hp : x.ParentId = p
    · simp only [if_pos hp] at h
      cases hs : subFunc.step (treeBuilder es ctor) recur (selfEntity x) with
      | none => simp [hs] at h
      | some r1 =>
        simp only [hs] at h
        cases hl : subFunc.loop (treeBuilder es ctor) recur p (xs.map selfEntity) [] [] with
        | none => simp [hl] at h
        | some r2 =>
          simp only [hl, Option.map_some', Option.some.injEq] at h
          subst h
          obtain ⟨h2a, h2b, h2c⟩ := ih2 r2 hl
          rcases treeBuilder_step es ctor recur x r1 hs with ⟨hc, rfl⟩ | ⟨l, subs, lg, hc, hr, rfl⟩
          · refine ⟨?_, ?_, ?_⟩
            · simpa [childLabels, hp, hc] using h2a
            · simpa using h2b
            · simpa [attachments_append, attachments] using h2c
          · obtain ⟨h3a, h3b, h3c⟩ := hrec _ _ hr
            refine ⟨?_, ?_, ?_⟩
            · simp only [childLabels] at h2a ⊢
              simp [hp, hc, h2a, Tree.label]
            · intro t ht
              rcases List.mem_append.1 ht with ht | ht
              · rw [List.mem_singleton.1 ht]
                exact WellBuilt_node es ctor x l subs (hxs x (List.mem_cons_self _ _)) hc h3a h3b
              · exact h2b t ht
            · have h3c2 : attachments lg = Tree.attachCallsList subs := h3c
              have hroot : attachments
                  [(Call.rootFunc x : Call (DataEntity T) (Tree (DataEntity T × L)))] = [] := rfl
              have e1 : Tree.attachCallsList ([Tree.node (x, l) subs] ++ r2.1) =
                  Tree.attachCallsList subs ++
                    (if subs.length > 0 then [(Tree.node (x, l) [], subs)] else []) ++
                    Tree.attachCallsList r2.1 := by
                simp [Tree.attachCallsList, Tree.attachCalls]
              have e2 : attachments
                  (if subs.length > 0 then
                    [(Call.appendSubFunc (Tree.node (x, l) []) subs :
                      Call (DataEntity T) (Tree (DataEntity T × L)))]
                   else []) =
                  if subs.length > 0 then [(Tree.node (x, l) [], subs)] else [] := by
                split <;> rfl
              show attachments (([Call.rootFunc x] ++ lg ++ _) ++ r2.2) =
                Tree.attachCallsList ([Tree.node (x, l) subs] ++ r2.1)
              rw [attachments_append, attachments_append, attachments_append, hroot, h3c2,
                e2, h2c, e1, List.nil_append]
    · simp only [if_neg hp] at h
      obtain ⟨h2a, h2b, h2c⟩ := ih2 r h
      refine ⟨?_, h2b, h2c⟩
      simpa [childLabels, hp] using h2a

theorem treeBuilder_subFunc {T L : Type} (es : List (DataEntity T)) (ctor : T → Option L)
    (fuel : Nat) : ∀ p r, subFunc (treeBuilder es ctor) fuel p = some r →
      ResultOK es ctor es p r := by
  induction fuel with
  | zero => intro p r h; simp [subFunc] at h
  | succ n ih =>
    intro p r h
    unfold subFunc at h
    rw [treeBuilder_dataEntities] at h
    by_cases hlen : (es.map selfEntity).length > 0
    · rw [if_pos hlen] at h
      exact treeBuilder_loop es ctor _ ih p es (fun x hx => hx) r h
    · rw [if_neg hlen] at h
      have hnil : es = [] := by
        cases es with
        | nil => rfl
        | cons a as => simp at hlen
      subst hnil
      rw [← Option.some.inj h]
      simp [ResultOK, childLabels, attachments, Tree.attachCallsList]

theorem treeBuilder_find {T L : Type} (es : List (DataEntity T)) (ctor : T → Option L)
    (r : Int) :
    (treeBuilder es ctor).dataEntities.find? (fun e => decide (e.Id = r)) =
      (es.find? (fun e => decide (e.Id = r))).map selfEntity := by
  rw [treeBuilder_dataEntities, List.find?_map]
  rfl

theorem treeBuilder_BuildTree {T L : Type} (es : List (DataEntity T)) (ctor : T → Option L)
    (fuel : Nat) (r : Int) (res : Option (Tree (DataEntity T × L)))
    (log : List (Call (DataEntity T) (Tree (DataEntity T × L))))
    (h : BuildTree (treeBuilder es ctor) fuel r = some (res, log)) :
    (res = none ∧ attachments log = [] ∧
      (es.find? (fun e => decide (e.Id = r)) = none ∨
        ∃ e, es.find? (fun e => decide (e.Id = r)) = some e ∧ ctor e.Data = none)) ∨
    (∃ t, res = some t ∧ WellBuilt es ctor t ∧
      es.find? (fun e => decide (e.Id = r)) = some t.entity ∧
      attachments log = t.attachCalls) := by
  cases hf : es.find? (fun e => decide (e.Id = r)) with
  | none =>
    have hf2 := treeBuilder_find es ctor r
    rw [hf] at hf2
    rw [BuildTree_of_find_none _ fuel r hf2] at h
    simp only [Option.some.injEq, Prod.mk.injEq] at h
    left
    exact ⟨h.1.symm, by rw [← h.2]; rfl, Or.inl rfl⟩
  | some e =>
    have hf2 := treeBuilder_find es ctor r
    rw [hf] at hf2
    have he : e.Id = r := by simpa using List.find?_some hf
    have hmem : e ∈ es := List.mem_of_find?_eq_some hf
    rw [BuildTree_of_find _ fuel r (selfEntity e) hf2] at h
    have hid : r = (selfEntity e).Id := he.symm
    rw [hid, BuildTree.loop_single] at h
    cases hs : subFunc.step (treeBuilder es ctor) (subFunc (treeBuilder es ctor) fuel)
        (selfEntity e) with
    | none => simp [hs] at h
    | some r1 =>
      simp only [hs, Option.map_some', Option.some.injEq, Prod.mk.injEq] at h
      obtain ⟨hres, hlog⟩ := h
      rcases treeBuilder_step es ctor _ e r1 hs with ⟨hc, rfl⟩ | ⟨l, subs, lg, hc, hr, rfl⟩
      · left
        refine ⟨hres.symm, by rw [← hlog]; rfl, Or.inr ⟨e, rfl, hc⟩⟩
      · right
        obtain ⟨h3a, h3b, h3c⟩ := treeBuilder_subFunc es ctor fuel _ _ hr
        refine ⟨Tree.node (e, l) subs, hres.symm, ?_, rfl, ?_⟩
        · exact WellBuilt_node es ctor e l subs hmem hc h3a h3b
        · have h3c2 : attachments lg = Tree.attachCallsList subs := h3c
          rw [← hlog]
          show attachments ([Call.rootFunc e] ++ lg ++ _) = _
          rw [attachments_append, attachments_append, h3c2]
          simp only [Tree.attachCalls]
          by_cases hlen : subs.length > 0
          · simp only [if_pos hlen]
            rfl
          · simp only [if_neg hlen]
            rfl

/-! ## Reachability in trees built by the tree builder -/

theorem Edge_map_selfEntity {T : Type} (es : List (DataEntity T)) (p q : Int) :
    Edge (es.map selfEntity) p q ↔ Edge es p q := by
  constructor
  · rintro ⟨x, hx, hp, hq⟩
    obtain ⟨e, he, rfl⟩ := List.mem_map.1 hx
    exact ⟨e, he, hp, hq⟩
  · rintro ⟨e, he, hp, hq⟩
    exact ⟨selfEntity e, List.mem_map.2 ⟨e, he, rfl⟩, hp, hq⟩

theorem Acyclic_treeBuilder {T L : Type} (es : List (DataEntity T)) (ctor : T → Option L)
    (h : Acyclic es) : Acyclic (treeBuilder es ctor).dataEntities := by
  rw [treeBuilder_dataEntities]
  intro i hi
  apply h i
  have heq : Edge (es.map selfEntity) = Edge es := by
    funext p q
    exact propext (Edge_map_selfEntity es p q)
  rw [heq] at hi
  exact hi

theorem Acyclic_of_rank {T : Type} (es : List (DataEntity T)) (rank : Int → Nat)
    (h : ∀ x ∈ es, rank x.ParentId < rank x.Id) : Acyclic es := by
  have hlt : ∀ i j, Relation.TransGen (Edge es) i j → rank i < rank j := by
    intro i j hij
    induction hij with
    | single hab =>
      obtain ⟨x, hx, rfl, rfl⟩ := hab
      exact h x hx
    | tail _ hbc ih =>
      obtain ⟨x, hx, rfl, rfl⟩ := hbc
      exact lt_trans ih (h x hx)
  intro i hi
  exact lt_irrefl _ (hlt i i hi)

theorem WellBuilt_of_child {T L : Type} (es : List (DataEntity T)) (ctor : T → Option L)
    (l : DataEntity T × L) (cs : List (Tree (DataEntity T × L)))
    (h : WellBuilt es ctor (Tree.node l cs)) : ∀ c ∈ cs, WellBuilt es ctor c :=
  fun c hc s hs => h s ((Tree.mem_nodes_node s l cs).2 (Or.inr ⟨c, hc, hs⟩))

theorem NodeOK.child {T L : Type} {es : List (DataEntity T)} {ctor : T → Option L}
    {s c : Tree (DataEntity T × L)} (h : NodeOK es ctor s) (hc : c ∈ s.children) :
    Child es s.entity c.entity := by
  have hmem : c.label ∈ s.children.map Tree.label := List.mem_map.2 ⟨c, hc, rfl⟩
  rw [h.2.2, mem_childLabels] at hmem
  exact ⟨hmem.1, hmem.2.1⟩

theorem WellBuilt.reach {T L : Type} (es : List (DataEntity T)) (ctor : T → Option L)
    (t : Tree (DataEntity T × L)) :
    WellBuilt es ctor t → ∀ s ∈ t.nodes, Relation.ReflTransGen (Child es) t.entity s.entity := by
  induction t using Tree.ind with
  | h l cs ih =>
    intro hwb s hs
    rcases (Tree.mem_nodes_node s l cs).1 hs with rfl | ⟨c, hc, hsc⟩
    · exact Relation.ReflTransGen.refl
    · have hstep : Child es (Tree.node l cs).entity c.entity :=
        (hwb _ (Tree.self_mem_nodes _)).child hc
      exact Relation.ReflTransGen.head hstep
        (ih c hc (WellBuilt_of_child es ctor l cs hwb c hc) s hsc)

theorem WellBuilt.mem_of_child {T L : Type} (es : List (DataEntity T)) (ctor : T → Option L)
    (t : Tree (DataEntity T × L)) (hwb : WellBuilt es ctor t) (a e : DataEntity T)
    (ha : a ∈ t.entities) (hch : Child es a e) (hctor : ctor e.Data ≠ none) :
    e ∈ t.entities := by
  obtain ⟨s, hs, rfl⟩ := List.mem_map.1 ha
  obtain ⟨l, hl⟩ := Option.ne_none_iff_exists'.1 hctor
  have hmem : (e, l) ∈ childLabels es ctor s.entity.Id :=
    (mem_childLabels es ctor _ (e, l)).2 ⟨hch.1, hch.2, hl⟩
  rw [← (hwb s hs).2.2] at hmem
  obtain ⟨c, hc, hcl⟩ := List.mem_map.1 hmem
  refine List.mem_map.2 ⟨c, Tree.mem_nodes_of_child t s hs c hc, ?_⟩
  simp [Tree.entity, hcl]

theorem Child.mem_of_reach {T : Type} {es : List (DataEntity T)} {a e : DataEntity T}
    (h : Relation.ReflTransGen (Child es) a e) (ha : a ∈ es) : e ∈ es := by
  induction h with
  | refl => exact ha
  | tail _ hbc _ => exact hbc.1

theorem WellBuilt.ancestor {T L : Type} (es : List (DataEntity T)) (ctor : T → Option L)
    (t : Tree (DataEntity T × L)) (hwb : WellBuilt es ctor t) (huniq : UniqueIds es)
    (a : DataEntity T) (ha : a ∈ es) (d : DataEntity T)
    (hreach : Relation.ReflTransGen (Child es) a d) (hd : d ∈ t.entities) :
    a ∈ t.entities ∨ Relation.TransGen (Child es) a t.entity := by
  induction hreach with
  | refl => exact Or.inl hd
  | tail hab hbc ih =>
    rename_i m d2
    obtain ⟨s, hs, rfl⟩ := List.mem_map.1 hd
    rcases Tree.parent_of_mem_nodes t s hs with rfl | ⟨q, hq, hsq⟩
    · exact Or.inr (Relation.TransGen.tail' hab hbc)
    · have hchild : Child es q.entity s.entity := (hwb q hq).child hsq
      have hm : m ∈ es := Child.mem_of_reach hab ha
      have hmq : m = q.entity :=
        huniq m hm q.entity (hwb q hq).1 (hbc.2.symm.trans hchild.2)
      exact ih (hmq ▸ List.mem_map.2 ⟨q, hq, rfl⟩)

/-! ## Attachment calls and the nodes of the result -/

theorem Tree.attachCallsList_perm {L : Type} (cs : List (Tree L))
    (h : ∀ c ∈ cs, List.Perm (c.attachCalls.map fun a => Tree.attach a.1 a.2)
      (c.nodes.filter fun s => decide (s.children.length > 0))) :
    List.Perm ((Tree.attachCallsList cs).map fun a => Tree.attach a.1 a.2)
      ((Tree.nodesList cs).filter fun s => decide (s.children.length > 0)) := by
  induction cs with
  | nil => simp [Tree.attachCallsList, Tree.nodesList]
  | cons c cs ih =>
    simp only [Tree.attachCallsList, Tree.nodesList, List.map_append, List.filter_append]
    exact List.Perm.append (h c (List.mem_cons_self _ _))
      (ih fun d hd => h d (List.mem_cons_of_mem _ hd))

theorem Tree.attachCalls_perm {L : Type} (t : Tree L) :
    List.Perm (t.attachCalls.map fun a => Tree.attach a.1 a.2)
      (t.nodes.filter fun s => decide (s.children.length > 0)) := by
  induction t using Tree.ind with
  | h l cs ih =>
    have hl := Tree.attachCallsList_perm cs ih
    simp only [Tree.attachCalls, Tree.nodes, List.map_append]
    by_cases hlen : cs.length > 0
    · have hf : (Tree.node l cs :: Tree.nodesList cs).filter
          (fun s => decide (s.children.length > 0)) =
          Tree.node l cs :: (Tree.nodesList cs).filter
            (fun s => decide (s.children.length > 0)) := by
        simp [List.filter_cons, Tree.children, hlen]
      rw [hf, if_pos hlen]
      have hm : List.map (fun a : Tree L × List (Tree L) => Tree.attach a.1 a.2)
          [(Tree.node l [], cs)] = [Tree.node l cs] := by
        simp [Tree.attach, Tree.label, Tree.children]
      rw [hm]
      exact (List.perm_append_comm).trans (List.Perm.cons _ hl)
    · have hf : (Tree.node l cs :: Tree.nodesList cs).filter
          (fun s => decide (s.children.length > 0)) =
          (Tree.nodesList cs).filter (fun s => decide (s.children.length > 0)) := by
        simp [List.filter_cons, Tree.children, hlen]
      rw [hf, if_neg hlen]
      simpa using hl

theorem Tree.attachCalls_args {L : Type} (t : Tree L) :
    ∀ a ∈ t.attachCalls, a.2 ≠ [] ∧ a.1.children = [] := by
  induction t using Tree.ind with
  | h l cs ih =>
    have hl : ∀ ds : List (Tree L), (∀ d ∈ ds, ∀ a ∈ d.attachCalls,
        a.2 ≠ [] ∧ a.1.children = []) →
        ∀ a ∈ Tree.attachCallsList ds, a.2 ≠ [] ∧ a.1.children = [] := by
      intro ds
      induction ds with
      | nil => intro _ a ha; simp [Tree.attachCallsList] at ha
      | cons d ds ihd =>
        intro hds a ha
        simp only [Tree.attachCallsList, List.mem_append] at ha
        rcases ha with ha | ha
        · exact hds d (List.mem_cons_self _ _) a ha
        · exact ihd (fun e he => hds e (List.mem_cons_of_mem _ he)) a ha
    intro a ha
    simp only [Tree.attachCalls, List.mem_append] at ha
    rcases ha with ha | ha
    · exact hl cs ih a ha
    · by_cases hlen : cs.length > 0
      · simp only [if_pos hlen, List.mem_singleton] at ha
        subst ha
        refine ⟨?_, rfl⟩
        intro hnil
        have hcs : cs = [] := hnil
        simp [hcs] at hlen
      · simp [if_neg hlen] at ha

theorem childLabels_map_fst {T L : Type} (es : List (DataEntity T)) (ctor : T → Option L)
    (p : Int) :
    (childLabels es ctor p).map Prod.fst =
      es.filter fun e => decide (e.ParentId = p) && (ctor e.Data).isSome := by
  induction es with
  | nil => rfl
  | cons x xs ih =>
    simp only [childLabels] at ih
    by_cases hp : x.ParentId = p
    · cases hc : ctor x.Data with
      | none => simp [childLabels, List.filter_cons, hp, hc, ih]
      | some l => simp [childLabels, List.filter_cons, hp, hc, ih]
    · simp [childLabels, List.filter_cons, hp, ih]

theorem smallEs_acyclic : Acyclic smallEs :=
  Acyclic_of_rank smallEs Int.toNat (by decide)

theorem smallEs_uniqueIds : UniqueIds smallEs := by
  unfold UniqueIds
  decide

theorem Child.parent_of_transGen {T : Type} {es : List (DataEntity T)} {a c : DataEntity T}
    (h : Relation.TransGen (Child es) a c) : ∃ m ∈ a :: es, c.ParentId = m.Id := by
  cases h with
  | single hc => exact ⟨a, List.mem_cons_self _ _, hc.2⟩
  | tail hab hbc =>
    rename_i m
    have hm : m ∈ es := by
      cases hab with
      | single hc => exact hc.1
      | tail _ hc => exact hc.1
    exact ⟨m, List.mem_cons_of_mem _ hm, hbc.2⟩

theorem smallEs_root_not_below :
    ∀ root ∈ smallEs, root.Id = 1 →
      ¬ Relation.TransGen (Child smallEs) ⟨3, 1, false⟩ root := by
  intro root hroot hid htg
  obtain ⟨m, hm, hpar⟩ := Child.parent_of_transGen htg
  have hall : ∀ x ∈ smallEs, x.Id = 1 →
      ∀ y ∈ (⟨3, 1, false⟩ : DataEntity Bool) :: smallEs, x.ParentId ≠ y.Id := by
    decide
  exact hall root hroot hid m hm hpar

/-! ## Bottoming out and divergence -/

theorem subFunc.loop_no_match {T TR : Type} (b : TreeBuiler T TR)
    (recur : Int → Option (List TR × List (Call T TR))) (p : Int)
    (xs : List (DataEntity T)) (h : ∀ x ∈ xs, x.ParentId ≠ p) :
    subFunc.loop b recur p xs [] [] = some ([], []) := by
  induction xs with
  | nil => rfl
  | cons x xs ih =>
    rw [subFunc.loop_cons, if_neg (h x (List.mem_cons_self _ _))]
    exact ih fun y hy => h y (List.mem_cons_of_mem _ hy)

theorem subFunc.step_none {T TR : Type} (b : TreeBuiler T TR)
    (recur : Int → Option (List TR × List (Call T TR))) (x : DataEntity T)
    (hroot : b.rootFunc x.Data ≠ none) (hrec : recur x.Id = none) :
    subFunc.step b recur x = none := by
  unfold subFunc.step
  cases hn : b.rootFunc x.Data with
  | none => exact absurd hn hroot
  | some n => simp [hrec]

theorem subFunc.loop_none {T TR : Type} (b : TreeBuiler T TR)
    (recur : Int → Option (List TR × List (Call T TR))) (p : Int)
    (xs : List (DataEntity T)) (x : DataEntity T) (hx : x ∈ xs) (hp : x.ParentId = p)
    (hs : subFunc.step b recur x = none) :
    subFunc.loop b recur p xs [] [] = none := by
  induction xs with
  | nil => exact absurd hx (List.not_mem_nil x)
  | cons y ys ih =>
    rw [subFunc.loop_cons]
    rcases List.mem_cons.1 hx with rfl | hmem
    · rw [if_pos hp, hs]
    · by_cases hy : y.ParentId = p
      · rw [if_pos hy]
        cases subFunc.step b recur y with
        | none => rfl
        | some r1 => simp [ih hmem]
      · rw [if_neg hy]
        exact ih hmem

theorem subFunc_none_of_closed {T TR : Type} (b : TreeBuiler T TR) (S : Int → Prop)
    (hS : ∀ p, S p → ∃ q, LiveEdge b p q ∧ S q) :
    ∀ fuel p, S p → subFunc b fuel p = none := by
  intro fuel
  induction fuel with
  | zero => intro p _; rfl
  | succ n ih =>
    intro p hp
    obtain ⟨q, ⟨x, hx, hxp, hxq, hroot⟩, hq⟩ := hS p hp
    have hlen : b.dataEntities.length > 0 := List.length_pos_of_mem hx
    have hrec : subFunc b n x.Id = none := by
      rw [hxq]
      exact ih q hq
    simp only [subFunc, if_pos hlen]
    exact subFunc.loop_none b _ p _ x hx hxp (subFunc.step_none b _ x hroot hrec)

theorem LiveEdge.closed_of_cycle {T TR : Type} (b : TreeBuiler T TR) (p : Int)
    (h : ∃ c, Relation.ReflTransGen (LiveEdge b) p c ∧ Relation.TransGen (LiveEdge b) c c) :
    ∃ q, LiveEdge b p q ∧
      ∃ c, Relation.ReflTransGen (LiveEdge b) q c ∧ Relation.TransGen (LiveEdge b) c c := by
  obtain ⟨c, hpc, hcc⟩ := h
  rcases Relation.ReflTransGen.cases_head hpc with rfl | ⟨q, hpq, hqc⟩
  · obtain ⟨q, hpq, hqp⟩ := Relation.TransGen.head'_iff.1 hcc
    exact ⟨q, hpq, p, hqp, hcc⟩
  · exact ⟨q, hpq, c, hqc, hcc⟩

theorem exampleTreeBuilder_acyclic : Acyclic exampleTreeBuilder.dataEntities :=
  Acyclic_of_rank _ Int.toNat (by decide)


/-! ## The child assembly in terms of `BuildTree` -/

theorem NodupIds.find {T : Type} {es : List (DataEntity T)} (h : NodupIds es)
    (x : DataEntity T) (hx : x ∈ es) :
    es.find? (fun e => decide (e.Id = x.Id)) = some x := by
  induction es with
  | nil => exact absurd hx (List.not_mem_nil x)
  | cons y ys ih =>
    have hnd : y.Id ∉ ys.map DataEntity.Id ∧ (ys.map DataEntity.Id).Nodup := by
      simpa [NodupIds] using h
    by_cases hy : y.Id = x.Id
    · rcases List.mem_cons.1 hx with rfl | hmem
      · simp [List.find?]
      · exact absurd (List.mem_map.2 ⟨x, hmem, hy.symm⟩) hnd.1
    · rcases List.mem_cons.1 hx with rfl | hmem
      · exact absurd rfl hy
      · simp only [List.find?, hy, decide_False]
        exact ih hnd.2 hmem

theorem NodupIds.uniqueIds {T : Type} {es : List (DataEntity T)} (h : NodupIds es) :
    UniqueIds es := by
  intro a ha b hb hab
  have h1 := h.find a ha
  have h2 := h.find b hb
  rw [hab, h2] at h1
  exact (Option.some.inj h1).symm

theorem NodupIds.nodup {T : Type} {es : List (DataEntity T)} (h : NodupIds es) :
    es.Nodup :=
  List.Nodup.of_map DataEntity.Id h

theorem subFunc.step_shape {T TR : Type} (b : TreeBuiler T TR)
    (recur : Int → Option (List TR × List (Call T TR))) (x : DataEntity T)
    (r : List TR × List (Call T TR)) (h : subFunc.step b recur x = some r) :
    r.1 = r.1.head?.toList := by
  unfold subFunc.step at h
  cases hn : b.rootFunc x.Data with
  | none =>
    simp only [hn, Option.some.injEq] at h
    rw [← h]
    rfl
  | some n =>
    simp only [hn] at h
    cases hrec : recur x.Id with
    | none => simp [hrec] at h
    | some q =>
      simp only [hrec] at h
      split at h
      · rw [← Option.some.inj h]
        rfl
      · rw [← Option.some.inj h]
        rfl

theorem subFunc.loop_children {T TR : Type} (b : TreeBuiler T TR)
    (recur : Int → Option (List TR × List (Call T TR))) (p : Int)
    (g : DataEntity T → Option TR) (xs : List (DataEntity T))
    (hg : ∀ x ∈ xs, x.ParentId = p → ∀ r1, subFunc.step b recur x = some r1 →
      g x = r1.1.head?) :
    ∀ r, subFunc.loop b recur p xs [] [] = some r →
      r.1 = (xs.filter fun x => decide (x.ParentId = p)).filterMap g := by
  induction xs with
  | nil =>
    intro r h
    simp only [subFunc.loop, Option.some.injEq] at h
    rw [← h]
    rfl
  | cons x xs ih =>
    intro r h
    have ih2 := ih fun y hy => hg y (List.mem_cons_of_mem _ hy)
    rw [subFunc.loop_cons] at h
    by_cases hp : x.ParentId = p
    · simp only [if_pos hp] at h
      cases hs : subFunc.step b recur x with
      | none => simp [hs] at h
      | some r1 =>
        simp only [hs] at h
        cases hl : subFunc.loop b recur p xs [] [] with
        | none => simp [hl] at h
        | some r2 =>
          simp only [hl, Option.map_some', Option.some.injEq] at h
          rw [← h]
          have hgx := hg x (List.mem_cons_self _ _) hp r1 hs
          have hshape := subFunc.step_shape b recur x r1 hs
          have hfil : ((x :: xs).filter fun x => decide (x.ParentId = p)) =
              x :: (xs.filter fun x => decide (x.ParentId = p)) := by
            simp [List.filter_cons, hp]
          rw [hfil, List.filterMap_cons, hgx, ← ih2 r2 hl]
          show r1.1 ++ r2.1 = _
          rw [hshape]
          cases r1.1.head? with
          | none => rfl
          | some n => rfl
    · simp only [if_neg hp] at h
      have hfil : ((x :: xs).filter fun x => decide (x.ParentId = p)) =
          (xs.filter fun x => decide (x.ParentId = p)) := by
        simp [List.filter_cons, hp]
      rw [hfil]
      exact ih2 r h

theorem BuildTree_eq_step {T TR : Type} (b : TreeBuiler T TR)
    (hu : NodupIds b.dataEntities) (fuel : Nat) (x : DataEntity T)
    (hx : x ∈ b.dataEntities) :
    BuildTree b fuel x.Id =
      (subFunc.step b (subFunc b fuel) x).map fun r => (r.1.head?, r.2) := by
  rw [BuildTree_of_find b fuel x.Id x (hu.find x hx), BuildTree.loop_single]

theorem subFunc_succ_children {T TR : Type} (b : TreeBuiler T TR)
    (hu : NodupIds b.dataEntities) (fuel : Nat) (p : Int)
    (r : List TR × List (Call T TR)) (h : subFunc b (fuel + 1) p = some r) :
    r.1 = (b.dataEntities.filter fun x => decide (x.ParentId = p)).filterMap
      fun x => (BuildTree b (fuel + 1) x.Id).bind Prod.fst := by
  unfold subFunc at h
  by_cases hlen : b.dataEntities.length > 0
  · rw [if_pos hlen] at h
    refine subFunc.loop_children b (subFunc b fuel) p _ b.dataEntities ?_ r h
    intro x hx _ r1 hs
    have hb : BuildTree b fuel x.Id = some (r1.1.head?, r1.2) := by
      rw [BuildTree_eq_step b hu fuel x hx, hs]
      rfl
    rw [BuildTree_mono b fuel (fuel + 1) (Nat.le_succ _) x.Id _ hb]
    rfl
  · rw [if_neg hlen] at h
    have hnil : b.dataEntities = [] := by
      cases hd : b.dataEntities with
      | nil => rfl
      | cons a as => simp [hd] at hlen
    rw [← Option.some.inj h, hnil]
    rfl

theorem exampleTreeBuilder_nodupIds : NodupIds exampleTreeBuilder.dataEntities := by
  unfold NodupIds
  decide


/-! ## Every entity is visited at most once -/

theorem Child.edge_of_transGen {T : Type} {es : List (DataEntity T)} {a c : DataEntity T}
    (h : Relation.TransGen (Child es) a c) : Relation.TransGen (Edge es) a.Id c.Id := by
  induction h with
  | single hc => exact Relation.TransGen.single ⟨_, hc.1, hc.2, rfl⟩
  | tail _ hc ih => exact Relation.TransGen.tail ih ⟨_, hc.1, hc.2, rfl⟩

theorem Acyclic.child_irrefl {T : Type} {es : List (DataEntity T)} (h : Acyclic es)
    (a : DataEntity T) : ¬ Relation.TransGen (Child es) a a :=
  fun ha => h a.Id (Child.edge_of_transGen ha)

theorem Child.comparable {T : Type} {es : List (DataEntity T)} (hu : UniqueIds es)
    {a b y : DataEntity T} (ha : a ∈ es) (hb : b ∈ es)
    (h1 : Relation.ReflTransGen (Child es) a y)
    (h2 : Relation.ReflTransGen (Child es) b y) :
    Relation.ReflTransGen (Child es) a b ∨ Relation.ReflTransGen (Child es) b a := by
  revert h2
  induction h1 with
  | refl => exact fun h2 => Or.inr h2
  | tail hab hbc ih =>
    rename_i m y2
    intro h2
    rcases Relation.ReflTransGen.cases_tail h2 with heq | ⟨m2, hbm2, hm2y⟩
    · exact Or.inl (heq ▸ hab.tail hbc)
    · have hm : m ∈ es := Child.mem_of_reach hab ha
      have hm2 : m2 ∈ es := Child.mem_of_reach hbm2 hb
      have hmm : m2 = m := hu m2 hm2 m hm (hm2y.2.symm.trans hbc.2)
      exact ih (hmm ▸ hbm2)

theorem Acyclic.sibling_eq {T : Type} {es : List (DataEntity T)} (h : Acyclic es)
    {x y : DataEntity T} (hx : x ∈ es) (hp : x.ParentId = y.ParentId)
    (hreach : Relation.ReflTransGen (Child es) x y) : y = x := by
  rcases Relation.ReflTransGen.cases_tail hreach with heq | ⟨m, hxm, hmy⟩
  · exact heq
  · have hmx : Child es m x := ⟨hx, hp.trans hmy.2⟩
    exact absurd (Relation.TransGen.head' hmx hxm) (h.child_irrefl m)

theorem constructions_append {T TR : Type} (l1 l2 : List (Call T TR)) :
    constructions (l1 ++ l2) = constructions l1 ++ constructions l2 := by
  simp [constructions, List.filterMap_append]

theorem constructions_step {T L : Type} (x : DataEntity T) (n : Tree (DataEntity T × L))
    (subs : List (Tree (DataEntity T × L)))
    (lg : List (Call (DataEntity T) (Tree (DataEntity T × L)))) :
    constructions ([Call.rootFunc x] ++ lg ++
      (if subs.length > 0 then [Call.appendSubFunc n subs] else [])) =
      x :: constructions lg := by
  rw [constructions_append, constructions_append]
  have h1 : constructions
      [(Call.rootFunc x : Call (DataEntity T) (Tree (DataEntity T × L)))] = [x] := rfl
  have h2 : constructions
      (if subs.length > 0 then
        [(Call.appendSubFunc n subs : Call (DataEntity T) (Tree (DataEntity T × L)))]
       else []) = [] := by
    split <;> rfl
  rw [h1, h2, List.append_nil]
  rfl

theorem VisitOK.below {T L : Type} {es : List (DataEntity T)} {x : DataEntity T}
    {r : List (Tree (DataEntity T × L)) ×
      List (Call (DataEntity T) (Tree (DataEntity T × L)))}
    (h : VisitOK es es x.Id r) (y : DataEntity T) (hy : y ∈ constructions r.2) :
    Relation.TransGen (Child es) x y := by
  obtain ⟨c, hc, hcp, hcy⟩ := h.2.1 y hy
  exact Relation.TransGen.head' ⟨hc, hcp⟩ hcy

theorem treeBuilder_loop_visits {T L : Type} (es : List (DataEntity T))
    (ctor : T → Option L) (hu : NodupIds es) (hac : Acyclic es)
    (recur : Int → Option (List (Tree (DataEntity T × L)) ×
      List (Call (DataEntity T) (Tree (DataEntity T × L)))))
    (hrec : ∀ q r, recur q = some r → VisitOK es es q r) (p : Int)
    (xs : List (DataEntity T)) (hxs : ∀ x ∈ xs, x ∈ es) (hnd : xs.Nodup) :
    ∀ r, subFunc.loop (treeBuilder es ctor) recur p (xs.map selfEntity) [] [] = some r →
      VisitOK es xs p r := by
  induction xs with
  | nil =>
    intro r h
    simp only [List.map_nil, subFunc.loop, Option.some.injEq] at h
    subst h
    exact ⟨List.Sublist.slnil, fun y hy => absurd hy (List.not_mem_nil y), List.nodup_nil⟩
  | cons x xs ih =>
    intro r h
    have hnd2 := List.nodup_cons.1 hnd
    have ih2 := ih (fun y hy => hxs y (List.mem_cons_of_mem _ hy)) hnd2.2
    have hxes : x ∈ es := hxs x (List.mem_cons_self _ _)
    rw [List.map_cons, subFunc.loop_cons] at h
    have hpid : (selfEntity x).ParentId = x.ParentId := rfl
    rw [hpid] at h
    by_cases hp : x.ParentId = p
    · simp only [if_pos hp] at h
      cases hs : subFunc.step (treeBuilder es ctor) recur (selfEntity x) with
      | none => simp [hs] at h
      | some r1 =>
        simp only [hs] at h
        cases hl : subFunc.loop (treeBuilder es ctor) recur p (xs.map selfEntity) [] [] with
        | none => simp [hl] at h
        | some r2 =>
          simp only [hl, Option.map_some', Option.some.injEq] at h
          subst h
          obtain ⟨h2a, h2b, h2c⟩ := ih2 r2 hl
          have hx_rest : x ∉ constructions r2.2 := by
            intro hmem
            obtain ⟨c, hc, hcp, hcx⟩ := h2b x hmem
            have hcx2 : x = c :=
              hac.sibling_eq (hxs c (List.mem_cons_of_mem _ hc)) (hcp.trans hp.symm) hcx
            exact hnd2.1 (hcx2 ▸ hc)
          rcases treeBuilder_step es ctor recur x r1 hs with
            ⟨_, rfl⟩ | ⟨l, subs, lg, _, hr, rfl⟩
          · have hlog : constructions
                (([Call.rootFunc x] : List (Call (DataEntity T) (Tree (DataEntity T × L)))) ++
                  r2.2) = x :: constructions r2.2 := by
              rw [constructions_append]
              rfl
            refine ⟨?_, ?_, ?_⟩
            · show List.Sublist ((Tree.nodesList ([] ++ r2.1)).map Tree.entity) _
              rw [hlog, List.nil_append]
              exact List.Sublist.cons _ h2a
            · intro y hy
              have hy2 : y ∈ x :: constructions r2.2 := hlog ▸ hy
              rcases List.mem_cons.1 hy2 with rfl | hy
              · exact ⟨y, List.mem_cons_self _ _, hp, Relation.ReflTransGen.refl⟩
              · obtain ⟨c, hc, hcp, hcy⟩ := h2b y hy
                exact ⟨c, List.mem_cons_of_mem _ hc, hcp, hcy⟩
            · show (constructions ([Call.rootFunc x] ++ r2.2)).Nodup
              rw [hlog]
              exact List.nodup_cons.2 ⟨hx_rest, h2c⟩
          · have hv := hrec _ _ hr
            have hlog : constructions
                (([Call.rootFunc x] ++ lg ++
                  (if subs.length > 0 then
                    [Call.appendSubFunc (Tree.node (x, l) []) subs] else [])) ++ r2.2) =
                x :: (constructions lg ++ constructions r2.2) := by
              rw [constructions_append, constructions_step]
              rfl
            have hbelow : ∀ y ∈ constructions lg, Relation.TransGen (Child es) x y :=
              fun y hy => hv.below y hy
            refine ⟨?_, ?_, ?_⟩
            · show List.Sublist
                ((Tree.nodesList ([Tree.node (x, l) subs] ++ r2.1)).map Tree.entity)
                (constructions (_ ++ r2.2))
              rw [hlog]
              have hn : (Tree.nodesList ([Tree.node (x, l) subs] ++ r2.1)).map Tree.entity =
                  x :: ((Tree.nodesList subs).map Tree.entity ++
                    (Tree.nodesList r2.1).map Tree.entity) := by
                simp [Tree.nodesList, Tree.nodes, Tree.entity, Tree.label]
              rw [hn]
              exact List.Sublist.cons₂ _ (List.Sublist.append hv.1 h2a)
            · intro y hy
              have hy2 : y ∈ x :: (constructions lg ++ constructions r2.2) := hlog ▸ hy
              rcases List.mem_cons.1 hy2 with rfl | hy3
              · exact ⟨y, List.mem_cons_self _ _, hp, Relation.ReflTransGen.refl⟩
              · rcases List.mem_append.1 hy3 with hy4 | hy4
                · exact ⟨x, List.mem_cons_self _ _, hp, (hbelow y hy4).to_reflTransGen⟩
                · obtain ⟨c, hc, hcp, hcy⟩ := h2b y hy4
                  exact ⟨c, List.mem_cons_of_mem _ hc, hcp, hcy⟩
            · show (constructions (_ ++ r2.2)).Nodup
              rw [hlog]
              refine List.nodup_cons.2 ⟨?_, List.nodup_append.2 ⟨hv.2.2, h2c, ?_⟩⟩
              · intro hmem
                rcases List.mem_append.1 hmem with hm | hm
                · exact hac.child_irrefl x (hbelow x hm)
                · exact hx_rest hm
              · intro y hy1 hy2
                obtain ⟨c, hc, hcp, hcy⟩ := h2b y hy2
                have hces : c ∈ es := hxs c (List.mem_cons_of_mem _ hc)
                have hxc : x = c := by
                  rcases Child.comparable hu.uniqueIds hxes hces
                    (hbelow y hy1).to_reflTransGen hcy with hcmp | hcmp
                  · exact (hac.sibling_eq hxes (hp.trans hcp.symm) hcmp).symm
                  · exact hac.sibling_eq hces (hcp.trans hp.symm) hcmp
                exact hnd2.1 (hxc ▸ hc)
    · simp only [if_neg hp] at h
      obtain ⟨h2a, h2b, h2c⟩ := ih2 r h
      refine ⟨h2a, ?_, h2c⟩
      intro y hy
      obtain ⟨c, hc, hcp, hcy⟩ := h2b y hy
      exact ⟨c, List.mem_cons_of_mem _ hc, hcp, hcy⟩


theorem treeBuilder_subFunc_visits {T L : Type} (es : List (DataEntity T))
    (ctor : T → Option L) (hu : NodupIds es) (hac : Acyclic es) (fuel : Nat) :
    ∀ p r, subFunc (treeBuilder es ctor) fuel p = some r → VisitOK es es p r := by
  induction fuel with
  | zero => intro p r h; simp [subFunc] at h
  | succ n ih =>
    intro p r h
    unfold subFunc at h
    rw [treeBuilder_dataEntities] at h
    by_cases hlen : (es.map selfEntity).length > 0
    · rw [if_pos hlen] at h
      exact treeBuilder_loop_visits es ctor hu hac _ ih p es (fun x hx => hx) hu.nodup r h
    · rw [if_neg hlen] at h
      rw [← Option.some.inj h]
      exact ⟨List.Sublist.slnil, fun y hy => absurd hy (List.not_mem_nil y), List.nodup_nil⟩

theorem treeBuilder_BuildTree_visits {T L : Type} (es : List (DataEntity T))
    (ctor : T → Option L) (hu : NodupIds es) (hac : Acyclic es)
    (fuel : Nat) (r : Int) (res : Option (Tree (DataEntity T × L)))
    (log : List (Call (DataEntity T) (Tree (DataEntity T × L))))
    (h : BuildTree (treeBuilder es ctor) fuel r = some (res, log)) :
    (constructions log).Nodup ∧ (∀ y ∈ constructions log, y ∈ es) ∧
      ∀ t, res = some t → List.Sublist t.entities (constructions log) := by
  cases hf : es.find? (fun e => decide (e.Id = r)) with
  | none =>
    have hf2 := treeBuilder_find es ctor r
    rw [hf] at hf2
    rw [BuildTree_of_find_none _ fuel r hf2] at h
    simp only [Option.some.injEq, Prod.mk.injEq] at h
    obtain ⟨hres, hlog⟩ := h
    subst hres hlog
    exact ⟨List.nodup_nil, fun y hy => absurd hy (List.not_mem_nil y),
      fun t ht => absurd ht (by simp)⟩
  | some e =>
    have hf2 := treeBuilder_find es ctor r
    rw [hf] at hf2
    have he : e.Id = r := by simpa using List.find?_some hf
    have hmem : e ∈ es := List.mem_of_find?_eq_some hf
    rw [BuildTree_of_find _ fuel r (selfEntity e) hf2] at h
    have hid : r = (selfEntity e).Id := he.symm
    rw [hid, BuildTree.loop_single] at h
    cases hs : subFunc.step (treeBuilder es ctor) (subFunc (treeBuilder es ctor) fuel)
        (selfEntity e) with
    | none => simp [hs] at h
    | some r1 =>
      simp only [hs, Option.map_some', Option.some.injEq, Prod.mk.injEq] at h
      obtain ⟨hres, hlog⟩ := h
      rcases treeBuilder_step es ctor _ e r1 hs with ⟨_, rfl⟩ | ⟨l, subs, lg, _, hr, rfl⟩
      · subst hres hlog
        refine ⟨?_, ?_, fun t ht => absurd ht (by simp)⟩
        · show ([e] : List (DataEntity T)).Nodup
          exact List.nodup_singleton e
        · intro y hy
          have hy2 : y ∈ [e] := hy
          rw [List.mem_singleton.1 hy2]
          exact hmem
      · have hv := treeBuilder_subFunc_visits es ctor hu hac fuel _ _ hr
        have hlog2 : constructions log = e :: constructions lg := by
          rw [← hlog]
          exact constructions_step e _ subs lg
        have hbelow : ∀ y ∈ constructions lg, Relation.TransGen (Child es) e y :=
          fun y hy => hv.below y hy
        refine ⟨?_, ?_, ?_⟩
        · rw [hlog2]
          exact List.nodup_cons.2 ⟨fun hm => hac.child_irrefl e (hbelow e hm), hv.2.2⟩
        · intro y hy
          rw [hlog2] at hy
          rcases List.mem_cons.1 hy with rfl | hy
          · exact hmem
          · exact Child.mem_of_reach (hbelow y hy).to_reflTransGen hmem
        · intro t ht
          rw [← hres] at ht
          have ht2 : Tree.node (e, l) subs = t := Option.some.inj ht
          rw [← ht2, hlog2]
          show List.Sublist ((Tree.node (e, l) subs).nodes.map Tree.entity) _
          have hn : (Tree.node (e, l) subs).nodes.map Tree.entity =
              e :: (Tree.nodesList subs).map Tree.entity := by
            simp [Tree.nodes, Tree.entity, Tree.label]
          rw [hn]
          exact List.Sublist.cons₂ _ hv.1

theorem smallEs_nodupIds : NodupIds smallEs := by
  unfold NodupIds
  decide


/-! ## The order of attachment calls -/

theorem List.split_of_append_eq {α : Type} {l1 l2 pre post : List α} {a : α}
    (h : l1 ++ l2 = pre ++ a :: post) :
    (∃ m, l1 = pre ++ a :: m ∧ post = m ++ l2) ∨ (∃ m, pre = l1 ++ m ∧ l2 = m ++ a :: post) := by
  induction l1 generalizing pre with
  | nil => exact Or.inr ⟨pre, rfl, h⟩
  | cons b bs ih =>
    cases pre with
    | nil =>
      simp only [List.cons_append, List.nil_append, List.cons.injEq] at h
      exact Or.inl ⟨bs, by rw [h.1]; rfl, h.2.symm⟩
    | cons c cs =>
      simp only [List.cons_append, List.cons.injEq] at h
      rcases ih h.2 with ⟨m, hm, hpost⟩ | ⟨m, hm, hl2⟩
      · exact Or.inl ⟨m, by rw [h.1, hm]; rfl, hpost⟩
      · exact Or.inr ⟨m, by rw [h.1, hm]; rfl, hl2⟩

theorem Tree.mem_attachCallsList {L : Type} (a : Tree L × List (Tree L))
    (cs : List (Tree L)) :
    a ∈ Tree.attachCallsList cs ↔ ∃ c ∈ cs, a ∈ c.attachCalls := by
  induction cs with
  | nil => simp [Tree.attachCallsList]
  | cons c cs ih => simp [Tree.attachCallsList, ih]

theorem Tree.attachCallsList_before {L : Type} (cs : List (Tree L))
    (h : ∀ c ∈ cs, ∀ pre a post, c.attachCalls = pre ++ a :: post →
      ∃ q, pre = q ++ Tree.attachCallsList a.2) :
    ∀ pre a post, Tree.attachCallsList cs = pre ++ a :: post →
      ∃ q, pre = q ++ Tree.attachCallsList a.2 := by
  induction cs with
  | nil =>
    intro pre a post hsplit
    simp [Tree.attachCallsList] at hsplit
  | cons c cs ih =>
    intro pre a post hsplit
    have ih2 := ih fun d hd => h d (List.mem_cons_of_mem _ hd)
    simp only [Tree.attachCallsList] at hsplit
    rcases List.split_of_append_eq hsplit with ⟨m, hm, _⟩ | ⟨m, hm, hrest⟩
    · exact h c (List.mem_cons_self _ _) pre a m hm
    · obtain ⟨q, hq⟩ := ih2 m a post hrest
      exact ⟨c.attachCalls ++ q, by rw [hm, hq, List.append_assoc]⟩

theorem Tree.attachCalls_before {L : Type} (t : Tree L) :
    ∀ pre a post, t.attachCalls = pre ++ a :: post →
      ∃ q, pre = q ++ Tree.attachCallsList a.2 := by
  induction t using Tree.ind with
  | h l cs ih =>
    intro pre a post hsplit
    simp only [Tree.attachCalls] at hsplit
    rcases List.split_of_append_eq hsplit with ⟨m, hm, _⟩ | ⟨m, hm, hrest⟩
    · exact Tree.attachCallsList_before cs ih pre a m hm
    · by_cases hlen : cs.length > 0
      · rw [if_pos hlen] at hrest
        cases m with
        | nil =>
          simp only [List.nil_append, List.cons.injEq] at hrest
          refine ⟨[], ?_⟩
          rw [hm, ← hrest.1]
          simp
        | cons b bs =>
          simp only [List.cons_append, List.cons.injEq] at hrest
          exact absurd hrest.2 (by simp)
      · rw [if_neg hlen] at hrest
        exact absurd hrest (by simp)

theorem Tree.own_call_mem {L : Type} (t : Tree L) :
    ∀ s ∈ t.nodes, s.children ≠ [] → (Tree.node s.label [], s.children) ∈ t.attachCalls := by
  induction t using Tree.ind with
  | h l cs ih =>
    intro s hs hne
    simp only [Tree.attachCalls, List.mem_append]
    rcases (Tree.mem_nodes_node s l cs).1 hs with rfl | ⟨c, hc, hsc⟩
    · right
      have hlen : cs.length > 0 := List.length_pos.2 hne
      rw [if_pos hlen]
      exact List.mem_singleton.2 rfl
    · left
      exact (Tree.mem_attachCallsList _ cs).2 ⟨c, hc, ih c hc s hsc hne⟩

theorem Tree.attach_mem_nodes {L : Type} (t : Tree L) (a : Tree L × List (Tree L))
    (ha : a ∈ t.attachCalls) : Tree.attach a.1 a.2 ∈ t.nodes := by
  have hmem : Tree.attach a.1 a.2 ∈ t.attachCalls.map fun a => Tree.attach a.1 a.2 :=
    List.mem_map.2 ⟨a, ha, rfl⟩
  exact (List.mem_filter.1 ((Tree.attachCalls_perm t).mem_iff.1 hmem)).1


/-! ## A recursion budget that always suffices on acyclic input -/

theorem subFunc.step_none_inv {T TR : Type} (b : TreeBuiler T TR)
    (recur : Int → Option (List TR × List (Call T TR))) (x : DataEntity T)
    (h : subFunc.step b recur x = none) : recur x.Id = none := by
  unfold subFunc.step at h
  cases hn : b.rootFunc x.Data with
  | none => simp [hn] at h
  | some n =>
    simp only [hn] at h
    cases hrec : recur x.Id with
    | none => rfl
    | some q =>
      simp only [hrec] at h
      split at h <;> simp at h

theorem subFunc.loop_none_inv {T TR : Type} (b : TreeBuiler T TR)
    (recur : Int → Option (List TR × List (Call T TR))) (p : Int)
    (xs : List (DataEntity T)) (h : subFunc.loop b recur p xs [] [] = none) :
    ∃ x ∈ xs, x.ParentId = p ∧ subFunc.step b recur x = none := by
  induction xs with
  | nil => simp [subFunc.loop] at h
  | cons y ys ih =>
    rw [subFunc.loop_cons] at h
    by_cases hy : y.ParentId = p
    · rw [if_pos hy] at h
      cases hs : subFunc.step b recur y with
      | none => exact ⟨y, List.mem_cons_self _ _, hy, hs⟩
      | some r1 =>
        simp only [hs, Option.map_eq_none'] at h
        obtain ⟨x, hx, hxp, hxs⟩ := ih h
        exact ⟨x, List.mem_cons_of_mem _ hx, hxp, hxs⟩
    · rw [if_neg hy] at h
      obtain ⟨x, hx, hxp, hxs⟩ := ih h
      exact ⟨x, List.mem_cons_of_mem _ hx, hxp, hxs⟩

theorem subFunc_none_chain {T TR : Type} (b : TreeBuiler T TR) (fuel : Nat) :
    ∀ p, subFunc b fuel p = none →
      ∃ l : List Int, l.length = fuel ∧ List.Chain (Edge b.dataEntities) p l := by
  induction fuel with
  | zero => exact fun p _ => ⟨[], rfl, List.Chain.nil⟩
  | succ n ih =>
    intro p h
    unfold subFunc at h
    by_cases hlen : b.dataEntities.length > 0
    · rw [if_pos hlen] at h
      obtain ⟨x, hx, hxp, hxs⟩ := subFunc.loop_none_inv b _ p _ h
      obtain ⟨l, hl, hchain⟩ := ih x.Id (subFunc.step_none_inv b _ x hxs)
      exact ⟨x.Id :: l, by simp [hl], List.Chain.cons ⟨x, hx, hxp, rfl⟩ hchain⟩
    · rw [if_neg hlen] at h
      simp at h

theorem Edge.transGen_of_chain {T : Type} {es : List (DataEntity T)} {l : List Int} :
    ∀ {p : Int}, List.Chain (Edge es) p l → ∀ q ∈ l, Relation.TransGen (Edge es) p q := by
  induction l with
  | nil => exact fun _ q hq => absurd hq (List.not_mem_nil q)
  | cons a l ih =>
    intro p hchain q hq
    have hc := List.chain_cons.1 hchain
    rcases List.mem_cons.1 hq with rfl | hmem
    · exact Relation.TransGen.single hc.1
    · exact Relation.TransGen.head hc.1 (ih hc.2 q hmem)

theorem Acyclic.chain_nodup {T : Type} {es : List (DataEntity T)} (h : Acyclic es)
    {l : List Int} : ∀ {p : Int}, List.Chain (Edge es) p l → l.Nodup := by
  induction l with
  | nil => exact fun _ => List.nodup_nil
  | cons a l ih =>
    intro p hchain
    have hc := List.chain_cons.1 hchain
    exact List.nodup_cons.2
      ⟨fun hmem => h a (Edge.transGen_of_chain hc.2 a hmem), ih hc.2⟩

theorem Acyclic.chain_length {T : Type} {es : List (DataEntity T)} (h : Acyclic es)
    {l : List Int} {p : Int} (hchain : List.Chain (Edge es) p l) :
    l.length ≤ es.length := by
  have hsub : l ⊆ es.map DataEntity.Id :=
    fun q hq => Edge.mem_ids
      (Relation.TransGen.tail'_iff.1 (Edge.transGen_of_chain hchain q hq)).choose_spec.2
  have hle := (List.subperm_of_subset (h.chain_nodup hchain) hsub).length_le
  simpa using hle

theorem subFunc_some_of_length_lt {T TR : Type} (b : TreeBuiler T TR)
    (hac : Acyclic b.dataEntities) (fuel : Nat) (hfuel : b.dataEntities.length < fuel)
    (p : Int) : ∃ r, subFunc b fuel p = some r := by
  cases hs : subFunc b fuel p with
  | some r => exact ⟨r, rfl⟩
  | none =>
    obtain ⟨l, hl, hchain⟩ := subFunc_none_chain b fuel p hs
    have hle := hac.chain_length hchain
    omega

theorem BuildTree_some_of_length_lt {T TR : Type} (b : TreeBuiler T TR)
    (hac : Acyclic b.dataEntities) (rootId : Int) :
    ∃ r, ∀ fuel, b.dataEntities.length < fuel → BuildTree b fuel rootId = some r := by
  obtain ⟨n, r, hn⟩ := BuildTree_terminates b hac rootId
  refine ⟨r, fun fuel hfuel => ?_⟩
  have hsome : ∃ r2, BuildTree b fuel rootId = some r2 := by
    cases hfind : b.dataEntities.find? (fun e => decide (e.Id = rootId)) with
    | none => exact ⟨_, BuildTree_of_find_none b fuel rootId hfind⟩
    | some x =>
      have hx : x.Id = rootId := by simpa using List.find?_some hfind
      obtain ⟨rs, hrs⟩ := subFunc.step_total b (subFunc b fuel) x
        (subFunc_some_of_length_lt b hac fuel hfuel x.Id)
      refine ⟨(rs.1.head?, rs.2), ?_⟩
      rw [BuildTree_of_find b fuel rootId x hfind, ← hx, BuildTree.loop_single, hrs]
      rfl
  obtain ⟨r2, hr2⟩ := hsome
  have h1 := BuildTree_mono b fuel (max fuel n) (le_max_left _ _) rootId r2 hr2
  rw [hn (max fuel n) (le_max_right _ _)] at h1
  rw [hr2, Option.some.inj h1]


/-! ## Trees in the heap -/

theorem ReifiesList.transportAux {L : Type} {m m2 : Nat} {h h2 : Heap L}
    (ts : List (Tree L))
    (ih : ∀ c ∈ ts, ∀ a, Reifies m h c a → Reifies m2 h2 c a) :
    ∀ cs, ReifiesList m h ts cs → ReifiesList m2 h2 ts cs := by
  induction ts with
  | nil => intro cs hcs; simpa [ReifiesList] using hcs
  | cons t ts iht =>
    intro cs hcs
    simp only [ReifiesList] at hcs ⊢
    obtain ⟨c, cs2, rfl, hc, hrest⟩ := hcs
    exact ⟨c, cs2, rfl, ih t (List.mem_cons_self _ _) c hc,
      iht (fun d hd => ih d (List.mem_cons_of_mem _ hd)) cs2 hrest⟩

theorem Reifies.transport {L : Type} {m m2 : Nat} {h h2 : Heap L} (hm : m2 ≤ m)
    (hagree : ∀ (a : Nat) (x : L × List Nat), m ≤ a → h[a]? = some x → h2[a]? = some x)
    (t : Tree L) : ∀ a, Reifies m h t a → Reifies m2 h2 t a := by
  induction t using Tree.ind with
  | h l ts ih =>
    intro a ha
    simp only [Reifies] at ha ⊢
    obtain ⟨hma, cs, hget, hcs⟩ := ha
    exact ⟨le_trans hm hma, cs, hagree a _ hma hget, ReifiesList.transportAux ts ih cs hcs⟩

theorem ReifiesList.transportList {L : Type} {m m2 : Nat} {h h2 : Heap L} (hm : m2 ≤ m)
    (hagree : ∀ (a : Nat) (x : L × List Nat), m ≤ a → h[a]? = some x → h2[a]? = some x)
    (ts : List (Tree L)) (cs : List Nat) (hcs : ReifiesList m h ts cs) :
    ReifiesList m2 h2 ts cs :=
  ReifiesList.transportAux ts (fun c _ => Reifies.transport hm hagree c) cs hcs

theorem ReifiesList.length_eq {L : Type} {m : Nat} {h : Heap L} (ts : List (Tree L)) :
    ∀ cs, ReifiesList m h ts cs → cs.length = ts.length := by
  induction ts with
  | nil => intro cs hcs; simp only [ReifiesList] at hcs; simp [hcs]
  | cons t ts ih =>
    intro cs hcs
    simp only [ReifiesList] at hcs
    obtain ⟨c, cs2, rfl, _, hrest⟩ := hcs
    simp [ih cs2 hrest]

theorem ReifiesList.snoc {L : Type} {m : Nat} {h : Heap L} (ts : List (Tree L))
    (t : Tree L) (a : Nat) (ha : Reifies m h t a) :
    ∀ cs, ReifiesList m h ts cs → ReifiesList m h (ts ++ [t]) (cs ++ [a]) := by
  induction ts with
  | nil =>
    intro cs hcs
    simp only [ReifiesList] at hcs
    subst hcs
    simp only [List.nil_append, ReifiesList]
    exact ⟨a, [], rfl, ha, rfl⟩
  | cons u us ih =>
    intro cs hcs
    simp only [ReifiesList] at hcs
    obtain ⟨c, cs2, rfl, hc, hrest⟩ := hcs
    simp only [List.cons_append, ReifiesList]
    exact ⟨c, cs2 ++ [a], rfl, hc, ih cs2 hrest⟩

theorem Heap.Extends.refl {L : Type} (h : Heap L) : Heap.Extends h h :=
  fun _ _ hx => hx

theorem Heap.Extends.trans {L : Type} {h1 h2 h3 : Heap L} (h12 : Heap.Extends h1 h2)
    (h23 : Heap.Extends h2 h3) : Heap.Extends h1 h3 :=
  fun a x hx => h23 a x (h12 a x hx)

theorem Heap.Extends.append {L : Type} (h ext : Heap L) : Heap.Extends h (h ++ ext) := by
  intro a x hx
  have hlt : a < h.length := (List.getElem?_eq_some.1 hx).1
  rw [List.getElem?_append_left hlt]
  exact hx

theorem Heap.Extends.length_le {L : Type} {h h2 : Heap L} (hext : Heap.Extends h h2) :
    h.length ≤ h2.length := by
  cases hl : h.length with
  | zero => exact Nat.zero_le _
  | succ n =>
    have hn : n < h.length := by omega
    have hget : h[n]? = some (h[n]) := List.getElem?_eq_getElem hn
    have h2get := hext n _ hget
    have := (List.getElem?_eq_some.1 h2get).1
    omega

theorem Heap.attach_self {L : Type} (h : Heap L) (n : Nat) (l : L) (cs sub : List Nat)
    (hn : h[n]? = some (l, cs)) : (Heap.attach n sub h)[n]? = some (l, cs ++ sub) := by
  have hlt : n < h.length := (List.getElem?_eq_some.1 hn).1
  simp only [Heap.attach, hn]
  exact List.getElem?_set_self hlt

theorem Heap.attach_other {L : Type} (h : Heap L) (n a : Nat) (sub : List Nat)
    (hne : a ≠ n) : (Heap.attach n sub h)[a]? = h[a]? := by
  unfold Heap.attach
  cases h[n]? with
  | none => rfl
  | some q => exact List.getElem?_set_ne (Ne.symm hne)


/-! ## The builder on the heap against the builder with nodes as values -/

theorem Simulates.of_extends {T L : Type} {h0 h h3 : Heap L}
    {v : Option (List (Tree L) × List (Call T (Tree L)))}
    {p : Option (List Nat × Heap L)} (hext : Heap.Extends h h3)
    (hs : Simulates h0 v p h3) : Simulates h0 v p h := by
  cases v with
  | none => exact hs
  | some q =>
    obtain ⟨cs, h2, hp, he, hr⟩ := hs
    exact ⟨cs, h2, hp, hext.trans he, hr⟩

theorem freshBuilder_loop {T L : Type} (es : List (DataEntity T)) (ctor : T → Option L)
    (vrecur : Int → Option (List (Tree L) × List (Call T (Tree L))))
    (precur : Int → Heap L → Option (List Nat × Heap L))
    (hrec : ∀ q h, Simulates h (vrecur q) (precur q h) h) (p : Int)
    (xs : List (DataEntity T)) :
    ∀ (vret : List (Tree L)) (vlog : List (Call T (Tree L))) (pret : List Nat)
      (h0 h : Heap L), h0.length ≤ h.length → ReifiesList h0.length h vret pret →
      Simulates h0 (subFunc.loop (valueBuilder es ctor) vrecur p xs vret vlog)
        (Ptr.subFunc.loop (freshBuilder es ctor) precur p xs pret h) h := by
  induction xs with
  | nil =>
    intro vret vlog pret h0 h _ hret
    exact ⟨pret, h, rfl, Heap.Extends.refl h, hret⟩
  | cons x xs ih =>
    intro vret vlog pret h0 h hle hret
    simp only [subFunc.loop, Ptr.subFunc.loop]
    by_cases hp : x.ParentId = p
    · simp only [if_pos hp]
      have hvroot : (valueBuilder es ctor).rootFunc x.Data =
          (ctor x.Data).map fun l => Tree.node l [] := rfl
      have hproot : (freshBuilder es ctor).rootFunc x.Data h =
          match ctor x.Data with
          | none => (none, h)
          | some l => (some h.length, h ++ [(l, [])]) := rfl
      rw [hvroot, hproot]
      cases hc : ctor x.Data with
      | none =>
        simp only [Option.map_none']
        exact ih vret _ pret h0 h hle hret
      | some l =>
        simp only [Option.map_some']
        have hsim := hrec x.Id (h ++ [(l, [])])
        cases hv : vrecur x.Id with
        | none =>
          rw [hv] at hsim
          have hpn : precur x.Id (h ++ [(l, [])]) = none := hsim
          simp only [hpn]
          rfl
        | some q =>
          obtain ⟨subs, lg⟩ := q
          rw [hv] at hsim
          obtain ⟨cs, h2, hp2, hext, hreif⟩ := hsim
          simp only [hp2]
          have hlen : cs.length = subs.length := ReifiesList.length_eq subs cs hreif
          have hext1 : Heap.Extends h (h ++ [(l, [])]) := Heap.Extends.append h _
          have hnode : h2[h.length]? = some (l, []) :=
            hext _ _ (List.getElem?_concat_length h (l, []))
          have hlen1 : (h ++ [(l, [])]).length = h.length + 1 := by simp
          by_cases hpos : subs.length > 0
          · have hpos2 : cs.length > 0 := by omega
            simp only [if_pos hpos, if_pos hpos2]
            have happ : (freshBuilder es ctor).appendSubFunc = Heap.attach := rfl
            have hvapp : (valueBuilder es ctor).appendSubFunc = Tree.attach := rfl
            rw [happ, hvapp]
            have hext3 : Heap.Extends h (Heap.attach h.length cs h2) := by
              intro a y hy
              have hlt : a < h.length := (List.getElem?_eq_some.1 hy).1
              rw [Heap.attach_other h2 h.length a cs (by omega)]
              exact hext _ _ (hext1 _ _ hy)
            have hnew : Reifies h0.length (Heap.attach h.length cs h2)
                (Tree.attach (Tree.node l []) subs) h.length := by
              simp only [Tree.attach, Tree.label, Tree.children, List.nil_append, Reifies]
              refine ⟨hle, cs, ?_, ?_⟩
              · simpa using Heap.attach_self h2 h.length l [] cs hnode
              · refine ReifiesList.transportList (by omega) ?_ subs cs hreif
                intro a y hma hy
                rw [Heap.attach_other h2 h.length a cs (by omega)]
                exact hy
            have hold : ReifiesList h0.length (Heap.attach h.length cs h2) vret pret :=
              ReifiesList.transportList le_rfl (fun a y _ hy => hext3 a y hy) vret pret hret
            have hle3 : h0.length ≤ (Heap.attach h.length cs h2).length :=
              le_trans hle hext3.length_le
            exact Simulates.of_extends hext3
              (ih _ _ _ h0 _ hle3 (ReifiesList.snoc vret _ _ hnew pret hold))
          · have hpos2 : ¬ cs.length > 0 := by omega
            simp only [if_neg hpos, if_neg hpos2]
            have hsubs : subs = [] := by
              cases subs with
              | nil => rfl
              | cons a as => simp at hpos
            have hext2 : Heap.Extends h h2 := hext1.trans hext
            have hnew : Reifies h0.length h2 (Tree.node l []) h.length := by
              simp only [Reifies, ReifiesList]
              exact ⟨hle, [], hnode, rfl⟩
            have hold : ReifiesList h0.length h2 vret pret :=
              ReifiesList.transportList le_rfl (fun a y _ hy => hext2 a y hy) vret pret hret
            exact Simulates.of_extends hext2
              (ih _ _ _ h0 _ (le_trans hle hext2.length_le)
                (ReifiesList.snoc vret _ _ hnew pret hold))
    · simp only [if_neg hp]
      exact ih vret vlog pret h0 h hle hret


theorem freshBuilder_subFunc {T L : Type} (es : List (DataEntity T)) (ctor : T → Option L)
    (fuel : Nat) : ∀ (p : Int) (h : Heap L),
      Simulates h (subFunc (valueBuilder es ctor) fuel p)
        (Ptr.subFunc (freshBuilder es ctor) fuel p h) h := by
  induction fuel with
  | zero => intro p h; rfl
  | succ n ih =>
    intro p h
    unfold subFunc Ptr.subFunc
    have hv : (valueBuilder es ctor).dataEntities = es := rfl
    have hp : (freshBuilder es ctor).dataEntities = es := rfl
    rw [hv, hp]
    by_cases hlen : es.length > 0
    · rw [if_pos hlen, if_pos hlen]
      exact freshBuilder_loop es ctor _ _ ih p es [] [] [] h h le_rfl rfl
    · rw [if_neg hlen, if_neg hlen]
      exact ⟨[], h, rfl, Heap.Extends.refl h, rfl⟩

theorem freshBuilder_node {L : Type} (h h2 : Heap L) (l : L) (subs : List (Tree L))
    (cs : List Nat) (hext : Heap.Extends (h ++ [(l, [])]) h2)
    (hreif : ReifiesList (h ++ [(l, [])]).length h2 subs cs) :
    Heap.Extends h (if cs.length > 0 then Heap.attach h.length cs h2 else h2) ∧
    Reifies h.length (if cs.length > 0 then Heap.attach h.length cs h2 else h2)
      (if subs.length > 0 then Tree.attach (Tree.node l []) subs else Tree.node l [])
      h.length := by
  have hlen : cs.length = subs.length := ReifiesList.length_eq subs cs hreif
  have hext1 : Heap.Extends h (h ++ [(l, [])]) := Heap.Extends.append h _
  have hnode : h2[h.length]? = some (l, []) :=
    hext _ _ (List.getElem?_concat_length h (l, []))
  have hlen1 : (h ++ [(l, [])]).length = h.length + 1 := by simp
  by_cases hpos : subs.length > 0
  · have hpos2 : cs.length > 0 := by omega
    simp only [if_pos hpos, if_pos hpos2]
    constructor
    · intro a y hy
      have hlt : a < h.length := (List.getElem?_eq_some.1 hy).1
      rw [Heap.attach_other h2 h.length a cs (by omega)]
      exact hext _ _ (hext1 _ _ hy)
    · simp only [Tree.attach, Tree.label, Tree.children, List.nil_append, Reifies]
      refine ⟨le_rfl, cs, ?_, ?_⟩
      · simpa using Heap.attach_self h2 h.length l [] cs hnode
      · refine ReifiesList.transportList (by omega) ?_ subs cs hreif
        intro a y hma hy
        rw [Heap.attach_other h2 h.length a cs (by omega)]
        exact hy
  · have hpos2 : ¬ cs.length > 0 := by omega
    simp only [if_neg hpos, if_neg hpos2]
    refine ⟨hext1.trans hext, ?_⟩
    simp only [Reifies, ReifiesList]
    exact ⟨le_rfl, [], hnode, rfl⟩

theorem freshBuilder_BuildTree_loop {T L : Type} (es : List (DataEntity T))
    (ctor : T → Option L) (fuel : Nat) (r : Int) (h : Heap L)
    (xs : List (DataEntity T)) :
    match BuildTree.loop (valueBuilder es ctor) fuel r xs with
    | none => Ptr.BuildTree.loop (freshBuilder es ctor) fuel r h xs = none
    | some (none, _) => Ptr.BuildTree.loop (freshBuilder es ctor) fuel r h xs = some (none, h)
    | some (some t, _) =>
      ∃ a h2, Ptr.BuildTree.loop (freshBuilder es ctor) fuel r h xs = some (some a, h2) ∧
        Heap.Extends h h2 ∧ Reifies h.length h2 t a := by
  induction xs with
  | nil => simp only [BuildTree.loop, Ptr.BuildTree.loop]
  | cons x xs ih =>
    simp only [BuildTree.loop, Ptr.BuildTree.loop]
    by_cases hx : x.Id = r
    · simp only [if_pos hx]
      have hvroot : (valueBuilder es ctor).rootFunc x.Data =
          (ctor x.Data).map fun l => Tree.node l [] := rfl
      have hproot : (freshBuilder es ctor).rootFunc x.Data h =
          match ctor x.Data with
          | none => (none, h)
          | some l => (some h.length, h ++ [(l, [])]) := rfl
      rw [hvroot, hproot]
      cases hc : ctor x.Data with
      | none => simp only [Option.map_none']
      | some l =>
        simp only [Option.map_some']
        have hsim := freshBuilder_subFunc es ctor fuel x.Id (h ++ [(l, [])])
        cases hv : subFunc (valueBuilder es ctor) fuel x.Id with
        | none =>
          rw [hv] at hsim
          have hpn : Ptr.subFunc (freshBuilder es ctor) fuel x.Id (h ++ [(l, [])]) = none :=
            hsim
          simp only [hpn]
        | some q =>
          obtain ⟨subs, lg⟩ := q
          rw [hv] at hsim
          obtain ⟨cs, h2, hp2, hext, hreif⟩ := hsim
          simp only [hp2]
          have hlen : cs.length = subs.length := ReifiesList.length_eq subs cs hreif
          have hnode := freshBuilder_node h h2 l subs cs hext hreif
          have happ : (freshBuilder es ctor).appendSubFunc = Heap.attach := rfl
          have hvapp : (valueBuilder es ctor).appendSubFunc = Tree.attach := rfl
          rw [happ, hvapp]
          by_cases hpos : subs.length > 0
          · have hpos2 : cs.length > 0 := by omega
            simp only [if_pos hpos, if_pos hpos2] at hnode ⊢
            exact ⟨_, _, rfl, hnode.1, hnode.2⟩
          · have hpos2 : ¬ cs.length > 0 := by omega
            simp only [if_neg hpos, if_neg hpos2] at hnode ⊢
            exact ⟨_, _, rfl, hnode.1, hnode.2⟩
    · simp only [if_neg hx]
      exact ih

theorem freshBuilder_BuildTree {T L : Type} (es : List (DataEntity T))
    (ctor : T → Option L) (fuel : Nat) (r : Int) (h : Heap L) :
    match BuildTree (valueBuilder es ctor) fuel r with
    | none => Ptr.BuildTree (freshBuilder es ctor) fuel r h = none
    | some (none, _) => Ptr.BuildTree (freshBuilder es ctor) fuel r h = some (none, h)
    | some (some t, _) =>
      ∃ a h2, Ptr.BuildTree (freshBuilder es ctor) fuel r h = some (some a, h2) ∧
        Heap.Extends h h2 ∧ Reifies h.length h2 t a := by
  unfold BuildTree Ptr.BuildTree
  have hv : (valueBuilder es ctor).dataEntities = es := rfl
  have hp : (freshBuilder es ctor).dataEntities = es := rfl
  rw [hv, hp]
  by_cases hlen : es.length > 0
  · rw [if_pos hlen, if_pos hlen]
    exact freshBuilder_BuildTree_loop es ctor fuel r h es
  · rw [if_neg hlen, if_neg hlen]


/-! ## Claims about root lookup and construction -/

/-- C4: when no entity of the builder has id `r` (in particular when the
entity list is empty), `BuildTree(r)` returns nil and the call log is empty:
neither the node constructor nor the attachment function was invoked.  This
holds for every recursion budget, the child assembly is never entered. -/
theorem BuildTree_absent_of_no_match {T TR : Type} (b : TreeBuiler T TR) (fuel : Nat)
    (r : Int) (h : ∀ e ∈ b.dataEntities, e.Id ≠ r) :
    BuildTree b fuel r = some (none, []) := by
  unfold BuildTree
  split
  · exact BuildTree.loop_not_found b fuel r _ h
  · rfl

theorem BuildTree_absent_of_no_match_witness :
    BuildTree exampleTreeBuilder 0 99 = some (none, []) :=
  BuildTree_absent_of_no_match exampleTreeBuilder 0 99 (by decide)

/-- C5: when the node constructor returns nil for the payload of the first
entity whose id is `r`, `BuildTree(r)` returns nil at once: the call log holds
exactly one node-constructor call and no attachment call, for every recursion
budget (the child assembly is not run), whatever follows in the list. -/
theorem BuildTree_absent_of_suppressed_root {T TR : Type} (b : TreeBuiler T TR)
    (fuel : Nat) (r : Int) (x : DataEntity T)
    (hfind : b.dataEntities.find? (fun e => decide (e.Id = r)) = some x)
    (hnil : b.rootFunc x.Data = none) :
    BuildTree b fuel r = some (none, [Call.rootFunc x.Data]) := by
  have hx : x.Id = r := by simpa using List.find?_some hfind
  rw [BuildTree_of_find b fuel r x hfind]
  simp [BuildTree.loop, hx, hnil]

theorem BuildTree_absent_of_suppressed_root_witness :
    BuildTree dupBuilder 0 1 = some (none, [Call.rootFunc false]) :=
  BuildTree_absent_of_suppressed_root dupBuilder 0 1 ⟨1, 0, false⟩ (by decide) (by decide)

/-- C6: when the first entity with id `r` is `x`, the node constructor returns
`n` for its payload and the child assembly for `r` returns `subs`, then
`BuildTree(r)` returns the node `n` with `subs` attached (attached only when
`subs` is non-empty); later entities with the same id play no part.  And
whenever `BuildTree(r)` returns, its result is nil exactly when no entity has
id `r` or the node constructor returned nil for the first one. -/
theorem BuildTree_first_match {T TR : Type} (b : TreeBuiler T TR) (fuel : Nat) (r : Int) :
    (∀ x n subs l,
      b.dataEntities.find? (fun e => decide (e.Id = r)) = some x →
      b.rootFunc x.Data = some n →
      subFunc b fuel r = some (subs, l) →
      BuildTree b fuel r =
        some (some (if subs.length > 0 then b.appendSubFunc n subs else n),
          [Call.rootFunc x.Data] ++ l ++
            (if subs.length > 0 then [Call.appendSubFunc n subs] else []))) ∧
    (∀ res log, BuildTree b fuel r = some (res, log) →
      (res = none ↔
        (b.dataEntities.find? (fun e => decide (e.Id = r)) = none ∨
          ∃ y, b.dataEntities.find? (fun e => decide (e.Id = r)) = some y ∧
            b.rootFunc y.Data = none))) := by
  constructor
  · intro x n subs l hfind hn hsub
    have hx : x.Id = r := by simpa using List.find?_some hfind
    rw [BuildTree_of_find b fuel r x hfind]
    by_cases hlen : subs.length > 0
    · simp [BuildTree.loop, hx, hn, hsub, hlen]
    · simp [BuildTree.loop, hx, hn, hsub, hlen]
  · intro res log hres
    cases hfind : b.dataEntities.find? (fun e => decide (e.Id = r)) with
    | none =>
      rw [BuildTree_of_find_none b fuel r hfind] at hres
      simp only [Option.some.injEq, Prod.mk.injEq] at hres
      simp [← hres.1]
    | some x =>
      have hx : x.Id = r := by simpa using List.find?_some hfind
      rw [BuildTree_of_find b fuel r x hfind] at hres
      cases hn : b.rootFunc x.Data with
      | none =>
        simp only [BuildTree.loop, hx, if_true, hn] at hres
        simp only [Option.some.injEq, Prod.mk.injEq] at hres
        simp [← hres.1, hn]
      | some n =>
        simp only [BuildTree.loop, hx, if_true, hn] at hres
        cases hsub : subFunc b fuel r with
        | none => simp [hsub] at hres
        | some p =>
          obtain ⟨subs, l⟩ := p
          simp only [hsub] at hres
          split at hres
          · simp only [Option.some.injEq, Prod.mk.injEq] at hres
            simp [← hres.1, hn]
          · simp only [Option.some.injEq, Prod.mk.injEq] at hres
            simp [← hres.1, hn]

theorem BuildTree_first_match_witness :
    BuildTree dupBuilder2 2 1 =
        some (some 11, [Call.rootFunc 10, Call.rootFunc 20, Call.appendSubFunc 10 [20]]) ∧
      ((some 11 : Option Nat) = none ↔
        (dupBuilder2.dataEntities.find? (fun e => decide (e.Id = 1)) = none ∨
          ∃ y, dupBuilder2.dataEntities.find? (fun e => decide (e.Id = 1)) = some y ∧
            dupBuilder2.rootFunc y.Data = none)) :=
  ⟨(BuildTree_first_match dupBuilder2 2 1).1 ⟨1, 0, 10⟩ 10 [20] [Call.rootFunc 20]
      (by decide) (by decide) (by decide),
    (BuildTree_first_match dupBuilder2 2 1).2 (some 11)
      [Call.rootFunc 10, Call.rootFunc 20, Call.appendSubFunc 10 [20]] (by decide)⟩

/-- C8: `NewTreeBuilder` stores the input sequence mapped through the entity
initializer `f`: same length, the i-th entity is `f` of the i-th item, `f` was
called once per item in input order (the call log is the input sequence), and
the injected functions are stored unchanged.  Nothing is validated: the
statement holds for every input, duplicate ids and cycles included. -/
theorem NewTreeBuilder_stores_map {T TR : Type} (items : List T)
    (rootFunc : T → Option TR) (appendSubFunc : TR → List TR → TR)
    (f : T → DataEntity T) :
    (NewTreeBuilder items rootFunc appendSubFunc f).dataEntities = items.map f ∧
    (NewTreeBuilder items rootFunc appendSubFunc f).dataEntities.length = items.length ∧
    (∀ i : Nat, (NewTreeBuilder items rootFunc appendSubFunc f).dataEntities[i]? =
        (items[i]?).map f) ∧
    (NewTreeBuilderLogged items rootFunc appendSubFunc f).2 = items ∧
    (NewTreeBuilder items rootFunc appendSubFunc f).rootFunc = rootFunc ∧
    (NewTreeBuilder items rootFunc appendSubFunc f).appendSubFunc = appendSubFunc := by
  refine ⟨NewTreeBuilder_dataEntities _ _ _ _, ?_, ?_, ?_, rfl, rfl⟩
  · simp [NewTreeBuilder_dataEntities]
  · intro i
    simp [NewTreeBuilder_dataEntities]
  · simp [NewTreeBuilderLogged, NewTreeBuilder.loop_eq]

/-- C10: on the six records of `example.go`, with the example's constructor
and append-children attachment, `BuildTree(1)` returns, for every recursion
budget of at least 4, the tree with root "01", children "01-02" and "01-03";
"01-02" with children "01-02-04" and "01-02-05"; "01-02-05" with the single
child "01-02-05-06"; the other three nodes childless. -/
theorem example_BuildTree_one (fuel : Nat) (h : 4 ≤ fuel) :
    (BuildTree exampleTreeBuilder fuel 1).map Prod.fst = some (some exampleExpected) := by
  have h4 : ∃ l, BuildTree exampleTreeBuilder 4 1 = some (some exampleExpected, l) :=
    ⟨_, rfl⟩
  obtain ⟨l, hl⟩ := h4
  rw [BuildTree_mono exampleTreeBuilder 4 fuel h 1 _ hl]
  rfl

theorem example_BuildTree_one_witness :
    (BuildTree exampleTreeBuilder 4 1).map Prod.fst = some (some exampleExpected) :=
  example_BuildTree_one 4 (by decide)

/-! ## Claims about the shape of the result -/

/-- C1: for an acyclic entity list with unique ids, an entity `root` of the
list and a node constructor that returns a node for every payload of the
list, `BuildTree(root.Id)` returns a tree (for every large enough recursion
budget, always the same one), and an entity is represented by a node of that
tree exactly when it is reachable from `root` by parent-to-child edges, `root`
included.  (That every parent id is the sentinel or an existing id is not
needed.) -/
theorem BuildTree_entities_eq_reachable {T L : Type} (es : List (DataEntity T))
    (ctor : T → Option L) (root : DataEntity T)
    (hac : Acyclic es) (huniq : UniqueIds es) (hroot : root ∈ es)
    (hctor : ∀ e ∈ es, ctor e.Data ≠ none) :
    ∃ n t log,
      (∀ fuel, n ≤ fuel →
        BuildTree (treeBuilder es ctor) fuel root.Id = some (some t, log)) ∧
      ∀ e, e ∈ t.entities ↔ Relation.ReflTransGen (Child es) root e := by
  obtain ⟨n, ⟨res, log⟩, hn⟩ :=
    BuildTree_terminates (treeBuilder es ctor) (Acyclic_treeBuilder es ctor hac) root.Id
  rcases treeBuilder_BuildTree es ctor n root.Id res log (hn n le_rfl) with
    ⟨_, _, hf | ⟨e, hf, hnil⟩⟩ | ⟨t, rfl, hwb, hf, _⟩
  · exact absurd (List.find?_eq_none.1 hf root hroot) (by simp)
  · exact absurd hnil (hctor e (List.mem_of_find?_eq_some hf))
  · have hid : t.entity.Id = root.Id := by simpa using List.find?_some hf
    have ht : t.entity = root :=
      huniq _ (List.mem_of_find?_eq_some hf) _ hroot hid
    refine ⟨n, t, log, hn, fun e => ⟨?_, ?_⟩⟩
    · intro he
      obtain ⟨s, hs, rfl⟩ := List.mem_map.1 he
      exact ht ▸ WellBuilt.reach es ctor t hwb s hs
    · intro hreach
      induction hreach with
      | refl => exact List.mem_map.2 ⟨t, Tree.self_mem_nodes t, ht⟩
      | tail _ hbc ih =>
        exact WellBuilt.mem_of_child es ctor t hwb _ _ ih hbc (hctor _ hbc.1)

theorem BuildTree_entities_eq_reachable_witness :
    ∃ n t log,
      (∀ fuel, n ≤ fuel →
        BuildTree (treeBuilder smallEs allCtor) fuel 1 = some (some t, log)) ∧
      ∀ e, e ∈ t.entities ↔ Relation.ReflTransGen (Child smallEs) ⟨1, 0, true⟩ e :=
  BuildTree_entities_eq_reachable smallEs allCtor ⟨1, 0, true⟩ smallEs_acyclic
    smallEs_uniqueIds (by decide) (by decide)

/-- C2: in every tree returned by `BuildTree`, the children of every node, in
order, are the nodes built from the entities whose parent id is the id of the
node's entity and for which the node constructor returned a node, in the order
of the entity list: the child labels are exactly `childLabels`, and the child
entities are the entity list filtered by parent id (and by the constructor
returning a node). -/
theorem children_follow_list_order {T L : Type} (es : List (DataEntity T))
    (ctor : T → Option L) (fuel : Nat) (r : Int) (t : Tree (DataEntity T × L))
    (log : List (Call (DataEntity T) (Tree (DataEntity T × L))))
    (h : BuildTree (treeBuilder es ctor) fuel r = some (some t, log)) :
    ∀ s ∈ t.nodes,
      s.children.map Tree.label = childLabels es ctor s.entity.Id ∧
      s.children.map Tree.entity =
        es.filter fun e => decide (e.ParentId = s.entity.Id) && (ctor e.Data).isSome := by
  rcases treeBuilder_BuildTree es ctor fuel r _ log h with
    ⟨hnone, _⟩ | ⟨t2, ht, hwb, _, _⟩
  · exact absurd hnone (by simp)
  · obtain rfl : t = t2 := Option.some.inj ht
    intro s hs
    refine ⟨(hwb s hs).2.2, ?_⟩
    rw [← childLabels_map_fst, ← (hwb s hs).2.2, List.map_map]
    rfl

theorem children_follow_list_order_witness :
    (BuildTree (treeBuilder smallEs keepCtor) 3 1).map Prod.fst = some (some smallTreeKeep) ∧
    ∀ s ∈ smallTreeKeep.nodes,
      s.children.map Tree.label = childLabels smallEs keepCtor s.entity.Id ∧
      s.children.map Tree.entity =
        smallEs.filter fun e =>
          decide (e.ParentId = s.entity.Id) && (keepCtor e.Data).isSome :=
  ⟨rfl, children_follow_list_order smallEs keepCtor 3 1 smallTreeKeep _ rfl⟩

/-- C3, as stated, fails: in `smallEs` with `keepCtor` the node constructor
returns nil for entity 3, entity 4 is a child of entity 3, the list has unique
ids and is acyclic, yet `BuildTree(4)` returns a tree that represents entity 4. -/
theorem suppressed_ancestor_counterexample :
    UniqueIds smallEs ∧ Acyclic smallEs ∧
    (⟨3, 1, false⟩ : DataEntity Bool) ∈ smallEs ∧
    keepCtor (⟨3, 1, false⟩ : DataEntity Bool).Data = none ∧
    ∃ t log, BuildTree (treeBuilder smallEs keepCtor) 1 4 = some (some t, log) ∧
      ¬ ∀ d, Relation.ReflTransGen (Child smallEs) ⟨3, 1, false⟩ d → d ∉ t.entities := by
  refine ⟨smallEs_uniqueIds, smallEs_acyclic, by decide, rfl,
    Tree.node (⟨4, 3, true⟩, ()) [], _, rfl, ?_⟩
  intro hall
  refine hall ⟨4, 3, true⟩ (Relation.ReflTransGen.single ⟨by decide, rfl⟩) ?_
  decide

/-- C3, amended: for an acyclic entity list with unique ids, a root id `r` and
an entity `E` of the list for which the node constructor returns nil, such
that no entity with id `r` is a proper descendant of `E`: `BuildTree(r)`
returns (for every large enough recursion budget), and neither `E` nor any
descendant of `E` is represented by a node of the result. -/
theorem suppressed_subtree_absent {T L : Type} (es : List (DataEntity T))
    (ctor : T → Option L) (r : Int) (E : DataEntity T)
    (hac : Acyclic es) (huniq : UniqueIds es) (hE : E ∈ es) (hnil : ctor E.Data = none)
    (hroot : ∀ root ∈ es, root.Id = r → ¬ Relation.TransGen (Child es) E root) :
    ∃ n res log,
      (∀ fuel, n ≤ fuel → BuildTree (treeBuilder es ctor) fuel r = some (res, log)) ∧
      ∀ t, res = some t →
        ∀ d, Relation.ReflTransGen (Child es) E d → d ∉ t.entities := by
  obtain ⟨n, ⟨res, log⟩, hn⟩ :=
    BuildTree_terminates (treeBuilder es ctor) (Acyclic_treeBuilder es ctor hac) r
  refine ⟨n, res, log, hn, ?_⟩
  rintro t rfl d hreach hd
  rcases treeBuilder_BuildTree es ctor n r _ log (hn n le_rfl) with
    ⟨hnone, _⟩ | ⟨t2, ht, hwb, hf, _⟩
  · exact absurd hnone (by simp)
  · obtain rfl : t = t2 := Option.some.inj ht
    rcases WellBuilt.ancestor es ctor t hwb huniq E hE d hreach hd with hmem | htrans
    · obtain ⟨s, hs, hse⟩ := List.mem_map.1 hmem
      have := (hwb s hs).2.1
      rw [hse, hnil] at this
      exact absurd this (by simp)
    · have hid : t.entity.Id = r := by simpa using List.find?_some hf
      exact hroot t.entity (List.mem_of_find?_eq_some hf) hid htrans

/-- C7: in every returned `BuildTree`, each recorded attachment call has a
non-empty child sequence and a parent that has no children yet; when the
result is nil there is no attachment call; and otherwise the nodes that the
attachment calls produce (parent with the passed children attached) are, up to
order, exactly the nodes of the returned tree that have at least one child,
each once: one call per such node, with all its children in that one call. -/
theorem attach_once_per_parent {T L : Type} (es : List (DataEntity T))
    (ctor : T → Option L) (fuel : Nat) (r : Int)
    (res : Option (Tree (DataEntity T × L)))
    (log : List (Call (DataEntity T) (Tree (DataEntity T × L))))
    (h : BuildTree (treeBuilder es ctor) fuel r = some (res, log)) :
    (∀ a ∈ attachments log, a.2 ≠ [] ∧ a.1.children = []) ∧
    (res = none → attachments log = []) ∧
    (∀ t, res = some t →
      List.Perm ((attachments log).map fun a => Tree.attach a.1 a.2)
        (t.nodes.filter fun s => decide (s.children.length > 0))) := by
  rcases treeBuilder_BuildTree es ctor fuel r res log h with
    ⟨hnone, hatt, _⟩ | ⟨t, ht, _, _, hatt⟩
  · refine ⟨?_, fun _ => hatt, ?_⟩
    · intro a ha
      rw [hatt] at ha
      exact absurd ha (List.not_mem_nil a)
    · intro t ht
      rw [hnone] at ht
      exact absurd ht (by simp)
  · refine ⟨?_, ?_, ?_⟩
    · rw [hatt]
      exact Tree.attachCalls_args t
    · intro hnone
      rw [hnone] at ht
      exact absurd ht (by simp)
    · intro t2 ht2
      obtain rfl : t = t2 := Option.some.inj (ht.symm.trans ht2)
      rw [hatt]
      exact Tree.attachCalls_perm t

theorem suppressed_subtree_absent_witness :
    ∃ n res log,
      (∀ fuel, n ≤ fuel →
        BuildTree (treeBuilder smallEs keepCtor) fuel 1 = some (res, log)) ∧
      ∀ t, res = some t →
        ∀ d, Relation.ReflTransGen (Child smallEs) ⟨3, 1, false⟩ d → d ∉ t.entities :=
  suppressed_subtree_absent smallEs keepCtor 1 ⟨3, 1, false⟩ smallEs_acyclic
    smallEs_uniqueIds (by decide) rfl smallEs_root_not_below

theorem attach_once_per_parent_witness :
    (∀ a ∈ attachments smallLogAll, a.2 ≠ [] ∧ a.1.children = []) ∧
    ((some smallTreeAll : Option (Tree (DataEntity Bool × Unit))) = none →
      attachments smallLogAll = []) ∧
    (∀ t, some smallTreeAll = some t →
      List.Perm ((attachments smallLogAll).map fun a => Tree.attach a.1 a.2)
        (t.nodes.filter fun s => decide (s.children.length > 0))) :=
  attach_once_per_parent smallEs allCtor 3 1 (some smallTreeAll) smallLogAll rfl

/-! ## Claims about termination -/

/-- C11: when the parent relation of the builder's entity list is acyclic, the
child-to-parent relation on identifiers is well-founded, no entity is its own
parent, and for every root id `BuildTree` returns, as does the child assembly
`subFunc` for every parent id, for every recursion budget larger than the
number of entities (always with the same result); and a parent id that no
entity has yields the empty sequence without any call, which is where the
recursion bottoms out. -/
theorem BuildTree_terminates_of_acyclic {T TR : Type} (b : TreeBuiler T TR)
    (hac : Acyclic b.dataEntities) (rootId : Int) :
    WellFounded (Function.swap (Edge b.dataEntities)) ∧
    (∀ x ∈ b.dataEntities, x.ParentId ≠ x.Id) ∧
    (∃ r, ∀ fuel, b.dataEntities.length < fuel → BuildTree b fuel rootId = some r) ∧
    (∀ p, ∃ r, ∀ fuel, b.dataEntities.length < fuel → subFunc b fuel p = some r) ∧
    (∀ p, (∀ x ∈ b.dataEntities, x.ParentId ≠ p) →
      ∀ fuel, subFunc b (fuel + 1) p = some ([], [])) := by
  refine ⟨hac.wellFounded, ?_, BuildTree_some_of_length_lt b hac rootId, ?_, ?_⟩
  · intro x hx heq
    exact hac x.Id (Relation.TransGen.single ⟨x, hx, heq, rfl⟩)
  · intro p
    obtain ⟨r, hr⟩ := subFunc_some_of_length_lt b hac (b.dataEntities.length + 1)
      (Nat.lt_succ_self _) p
    exact ⟨r, fun fuel hle => subFunc_mono b _ fuel hle p r hr⟩
  · intro p hp fuel
    unfold subFunc
    split
    · exact subFunc.loop_no_match b _ p _ hp
    · rfl

theorem BuildTree_terminates_of_acyclic_witness :
    WellFounded (Function.swap (Edge exampleTreeBuilder.dataEntities)) ∧
    (∀ x ∈ exampleTreeBuilder.dataEntities, x.ParentId ≠ x.Id) ∧
    (∃ r, ∀ fuel, exampleTreeBuilder.dataEntities.length < fuel →
      BuildTree exampleTreeBuilder fuel 1 = some r) ∧
    (∀ p, ∃ r, ∀ fuel, exampleTreeBuilder.dataEntities.length < fuel →
      subFunc exampleTreeBuilder fuel p = some r) ∧
    (∀ p, (∀ x ∈ exampleTreeBuilder.dataEntities, x.ParentId ≠ p) →
      ∀ fuel, subFunc exampleTreeBuilder (fuel + 1) p = some ([], [])) :=
  BuildTree_terminates_of_acyclic exampleTreeBuilder exampleTreeBuilder_acyclic 1

/-- C12: when the first entity with id `r` gets a node from the node
constructor and, following edges to entities for which the constructor
returns a node, a cycle can be reached from `r` (an identifier `c` reachable
from `r` and from itself), then `BuildTree(r)` returns for no recursion
budget `fuel`: the recursion is unbounded. -/
theorem BuildTree_diverges_on_cycle {T TR : Type} (b : TreeBuiler T TR) (r : Int)
    (x : DataEntity T) (c : Int) (fuel : Nat)
    (hfind : b.dataEntities.find? (fun e => decide (e.Id = r)) = some x)
    (hroot : b.rootFunc x.Data ≠ none)
    (hpath : Relation.ReflTransGen (LiveEdge b) r c)
    (hcycle : Relation.TransGen (LiveEdge b) c c) :
    BuildTree b fuel r = none := by
  have hx : x.Id = r := by simpa using List.find?_some hfind
  have hsub : subFunc b fuel x.Id = none := by
    rw [hx]
    exact subFunc_none_of_closed b
      (fun p => ∃ c, Relation.ReflTransGen (LiveEdge b) p c ∧
        Relation.TransGen (LiveEdge b) c c)
      (LiveEdge.closed_of_cycle b) fuel r ⟨c, hpath, hcycle⟩
  rw [BuildTree_of_find b fuel r x hfind, ← hx, BuildTree.loop_single,
    subFunc.step_none b _ x hroot hsub]
  rfl

theorem BuildTree_diverges_on_cycle_witness :
    BuildTree selfLoopBuilder 1000 0 = none ∧ BuildTree cycleBuilder 1000 1 = none :=
  ⟨BuildTree_diverges_on_cycle selfLoopBuilder 0 ⟨0, 0, ()⟩ 0 1000 (by decide) (by decide)
      Relation.ReflTransGen.refl
      (Relation.TransGen.single ⟨⟨0, 0, ()⟩, by decide, rfl, rfl, by decide⟩),
    BuildTree_diverges_on_cycle cycleBuilder 1 ⟨1, 0, ()⟩ 2 1000 (by decide) (by decide)
      (Relation.ReflTransGen.single ⟨⟨2, 1, ()⟩, by decide, rfl, rfl, by decide⟩)
      (Relation.TransGen.tail
        (Relation.TransGen.single ⟨⟨3, 2, ()⟩, by decide, rfl, rfl, by decide⟩)
        ⟨⟨2, 3, ()⟩, by decide, rfl, rfl, by decide⟩)⟩

/-! ## Claims about the structure of the recursion -/

/-- C14: for a builder whose entity list has no identifier twice and an acyclic
parent relation, and every id `p`: for every large enough recursion budget the
child assembly for `p` returns, and the sequence it returns is the sequence of
the non-nil results of `BuildTree(x.Id)` over the entities `x` with parent id
`p`, in list order.  In particular the children attached to the root of
`BuildTree(r)` are the trees `BuildTree(c.Id)` of the entities `c` with parent
id `r`. -/
theorem subFunc_eq_BuildTree_of_children {T TR : Type} (b : TreeBuiler T TR)
    (hu : NodupIds b.dataEntities) (hac : Acyclic b.dataEntities) (p : Int) :
    ∃ n ts log, ∀ fuel, n ≤ fuel →
      subFunc b fuel p = some (ts, log) ∧
      ts = (b.dataEntities.filter fun x => decide (x.ParentId = p)).filterMap
        (fun x => (BuildTree b fuel x.Id).bind Prod.fst) ∧
      ∀ x root, x ∈ b.dataEntities → x.Id = p → b.rootFunc x.Data = some root →
        (BuildTree b fuel p).map Prod.fst =
          some (some (if ts.length > 0 then b.appendSubFunc root ts else root)) := by
  obtain ⟨n, ⟨ts, log⟩, hn⟩ := subFunc_terminates b hac p
  refine ⟨n + 1, ts, log, fun fuel hle => ?_⟩
  have hsub : subFunc b fuel p = some (ts, log) :=
    subFunc_mono b n fuel (Nat.le_of_succ_le hle) p _ hn
  refine ⟨hsub, ?_, ?_⟩
  · obtain ⟨k, rfl⟩ : ∃ k, fuel = k + 1 := ⟨fuel - 1, by omega⟩
    exact subFunc_succ_children b hu k p (ts, log) hsub
  · intro x root hx hxp hroot
    subst hxp
    rw [BuildTree_eq_step b hu fuel x hx]
    unfold subFunc.step
    simp only [hroot, hsub]
    split <;> rfl

theorem subFunc_eq_BuildTree_of_children_witness :
    ∃ n ts log, ∀ fuel, n ≤ fuel →
      subFunc exampleTreeBuilder fuel 1 = some (ts, log) ∧
      ts = (exampleTreeBuilder.dataEntities.filter
          fun x => decide (x.ParentId = 1)).filterMap
        (fun x => (BuildTree exampleTreeBuilder fuel x.Id).bind Prod.fst) ∧
      ∀ x root, x ∈ exampleTreeBuilder.dataEntities → x.Id = 1 →
        exampleTreeBuilder.rootFunc x.Data = some root →
        (BuildTree exampleTreeBuilder fuel 1).map Prod.fst =
          some (some (if ts.length > 0 then exampleTreeBuilder.appendSubFunc root ts
            else root)) :=
  subFunc_eq_BuildTree_of_children exampleTreeBuilder exampleTreeBuilder_nodupIds
    exampleTreeBuilder_acyclic 1

/-- C13: for an entity list in which no identifier occurs twice and whose
parent relation is acyclic, and every root id `r`: `BuildTree(r)` returns (for
every large enough recursion budget); no entity is represented by two nodes of
the returned tree, so the tree has at most as many nodes as the list has
entities; and the node constructor is called at most once per entity, only for
entities of the list. -/
theorem each_entity_built_once {T L : Type} (es : List (DataEntity T))
    (ctor : T → Option L) (r : Int) (hu : NodupIds es) (hac : Acyclic es) :
    ∃ n res log,
      (∀ fuel, n ≤ fuel → BuildTree (treeBuilder es ctor) fuel r = some (res, log)) ∧
      (constructions log).Nodup ∧
      (∀ y ∈ constructions log, y ∈ es) ∧
      (constructions log).length ≤ es.length ∧
      ∀ t, res = some t →
        t.entities.Nodup ∧ (∀ e ∈ t.entities, e ∈ es) ∧ t.nodes.length ≤ es.length := by
  obtain ⟨n, ⟨res, log⟩, hn⟩ :=
    BuildTree_terminates (treeBuilder es ctor) (Acyclic_treeBuilder es ctor hac) r
  obtain ⟨hnd, hsub, hsl⟩ :=
    treeBuilder_BuildTree_visits es ctor hu hac n r res log (hn n le_rfl)
  have hlen : (constructions log).length ≤ es.length :=
    (List.subperm_of_subset hnd hsub).length_le
  refine ⟨n, res, log, hn, hnd, hsub, hlen, fun t ht => ?_⟩
  have hs := hsl t ht
  refine ⟨hs.nodup hnd, fun e he => hsub e (hs.subset he), ?_⟩
  have hl : t.nodes.length = t.entities.length := by
    simp [Tree.entities]
  rw [hl]
  exact le_trans hs.length_le hlen

theorem each_entity_built_once_witness :
    ∃ n res log,
      (∀ fuel, n ≤ fuel →
        BuildTree (treeBuilder smallEs keepCtor) fuel 1 = some (res, log)) ∧
      (constructions log).Nodup ∧
      (∀ y ∈ constructions log, y ∈ smallEs) ∧
      (constructions log).length ≤ smallEs.length ∧
      ∀ t, res = some t →
        t.entities.Nodup ∧ (∀ e ∈ t.entities, e ∈ smallEs) ∧
          t.nodes.length ≤ smallEs.length :=
  each_entity_built_once smallEs keepCtor 1 smallEs_nodupIds smallEs_acyclic

/-- C15: in every returned `BuildTree(r)`, at each position of the attachment
log (calls `pre` before the call `a`): every child `N` passed in `a` is a node
of the final tree, so it already has all its children, and for every node `s`
inside the subtree of `N` that has children, the attachment call made for `s`
is already in `pre`; and when the root has children, the attachment call for
the root is the last entry of the attachment log. -/
theorem attach_bottom_up {T L : Type} (es : List (DataEntity T))
    (ctor : T → Option L) (fuel : Nat) (r : Int) (t : Tree (DataEntity T × L))
    (log : List (Call (DataEntity T) (Tree (DataEntity T × L))))
    (h : BuildTree (treeBuilder es ctor) fuel r = some (some t, log)) :
    (∀ pre a post, attachments log = pre ++ a :: post →
      ∀ N ∈ a.2, N ∈ t.nodes ∧
        ∀ s ∈ N.nodes, s.children ≠ [] → (Tree.node s.label [], s.children) ∈ pre) ∧
    (t.children ≠ [] →
      ∃ pre, attachments log = pre ++ [(Tree.node t.label [], t.children)]) := by
  rcases treeBuilder_BuildTree es ctor fuel r _ log h with
    ⟨hnone, _⟩ | ⟨t2, ht, _, _, hatt⟩
  · exact absurd hnone (by simp)
  · obtain rfl : t = t2 := Option.some.inj ht
    constructor
    · intro pre a post hsplit N hN
      rw [hatt] at hsplit
      have ha : a ∈ t.attachCalls := by
        rw [hsplit]
        exact List.mem_append_right _ (List.mem_cons_self _ _)
      have hnode : Tree.attach a.1 a.2 ∈ t.nodes := Tree.attach_mem_nodes t a ha
      have hchild : N ∈ (Tree.attach a.1 a.2).children := by
        simp only [Tree.attach, Tree.children, List.mem_append]
        exact Or.inr hN
      refine ⟨Tree.mem_nodes_of_child t _ hnode N hchild, fun s hs hne => ?_⟩
      obtain ⟨q, hq⟩ := Tree.attachCalls_before t pre a post hsplit
      rw [hq]
      exact List.mem_append_right _
        ((Tree.mem_attachCallsList _ a.2).2 ⟨N, hN, Tree.own_call_mem N s hs hne⟩)
    · intro hne
      rw [hatt]
      cases t with
      | node l cs =>
        have hlen : cs.length > 0 := List.length_pos.2 hne
        exact ⟨Tree.attachCallsList cs, by simp [Tree.attachCalls, hlen, Tree.label, Tree.children]⟩

theorem attach_bottom_up_witness :
    (∀ pre a post, attachments smallLogAll = pre ++ a :: post →
      ∀ N ∈ a.2, N ∈ smallTreeAll.nodes ∧
        ∀ s ∈ N.nodes, s.children ≠ [] → (Tree.node s.label [], s.children) ∈ pre) ∧
    (smallTreeAll.children ≠ [] →
      ∃ pre, attachments smallLogAll =
        pre ++ [(Tree.node smallTreeAll.label [], smallTreeAll.children)]) :=
  attach_bottom_up smallEs allCtor 3 1 smallTreeAll smallLogAll rfl

/-! ## Claims about repeated calls -/

/-- C9, as stated, fails: the node constructor of `aliasBuilder` is
deterministic and writes nothing (it returns the node stored in the payload
and leaves the heap as it is), yet the first `BuildTree(1)` influences the
second.  From the heap `aliasHeap0` the first call returns node 0 as the tree
`n1[n2]`; the second call, on the same builder, returns node 0 as the tree
`n1[n2, n2]`, which is not the tree the first call returned. -/
theorem alias_second_call_differs :
    (∀ d h, aliasBuilder.rootFunc d h = (some d, h)) ∧
    Ptr.BuildTree aliasBuilder 2 1 aliasHeap0 = some (some 0, aliasHeap1) ∧
    Ptr.BuildTree aliasBuilder 2 1 aliasHeap1 = some (some 0, aliasHeap2) ∧
    Reifies 0 aliasHeap1 (Tree.node "n1" [Tree.node "n2" []]) 0 ∧
    Reifies 0 aliasHeap2 (Tree.node "n1" [Tree.node "n2" [], Tree.node "n2" []]) 0 ∧
    ¬ Reifies 0 aliasHeap2 (Tree.node "n1" [Tree.node "n2" []]) 0 := by
  refine ⟨fun _ _ => rfl, by decide, by decide, ?_, ?_, ?_⟩
  · simp only [Reifies, ReifiesList]
    exact ⟨Nat.le_refl 0, [1], rfl, 1, [], rfl, ⟨Nat.zero_le 1, [], rfl, rfl⟩, rfl⟩
  · simp only [Reifies, ReifiesList]
    exact ⟨Nat.le_refl 0, [1, 1], rfl, 1, [1], rfl, ⟨Nat.zero_le 1, [], rfl, rfl⟩,
      1, [], rfl, ⟨Nat.zero_le 1, [], rfl, rfl⟩, rfl⟩
  · simp [Reifies, ReifiesList, aliasHeap2]

/-- C9, amended: for a builder whose node constructor allocates a new node on
every call (or returns nil), with content given by the payload, and whose
attachment appends children: when `BuildTree(r)` returns from heap `h0` with
heap `h1`, a second `BuildTree(r)` on the same builder returns from `h1`; both
calls leave every node that existed before them unchanged; and either both
return nil, or they return two different nodes that are one and the same tree
`t`, the tree the builder with nodes as values computes: the first node is `t`
after the first call and still after the second, and the second node is `t`,
built from nodes allocated by the second call only. -/
theorem BuildTree_twice_deep_equal {T L : Type} (es : List (DataEntity T))
    (ctor : T → Option L) (fuel : Nat) (r : Int) (h0 : Heap L)
    (res1 : Option Nat) (h1 : Heap L)
    (hrun : Ptr.BuildTree (freshBuilder es ctor) fuel r h0 = some (res1, h1)) :
    ∃ res2 h2,
      Ptr.BuildTree (freshBuilder es ctor) fuel r h1 = some (res2, h2) ∧
      Heap.Extends h0 h1 ∧ Heap.Extends h1 h2 ∧
      ((res1 = none ∧ res2 = none ∧
          (BuildTree (valueBuilder es ctor) fuel r).map Prod.fst = some none) ∨
        ∃ a1 a2 t, res1 = some a1 ∧ res2 = some a2 ∧ a1 ≠ a2 ∧
          (BuildTree (valueBuilder es ctor) fuel r).map Prod.fst = some (some t) ∧
          Reifies h0.length h1 t a1 ∧ Reifies h0.length h2 t a1 ∧
          Reifies h1.length h2 t a2) := by
  have hs1 := freshBuilder_BuildTree es ctor fuel r h0
  have hs2 := freshBuilder_BuildTree es ctor fuel r h1
  cases hv : BuildTree (valueBuilder es ctor) fuel r with
  | none =>
    rw [hv] at hs1
    have hnone : Ptr.BuildTree (freshBuilder es ctor) fuel r h0 = none := hs1
    rw [hnone] at hrun
    exact absurd hrun (by simp)
  | some q =>
    obtain ⟨vres, vlog⟩ := q
    rw [hv] at hs1 hs2
    cases vres with
    | none =>
      have e1 : Ptr.BuildTree (freshBuilder es ctor) fuel r h0 = some (none, h0) := hs1
      have e2 : Ptr.BuildTree (freshBuilder es ctor) fuel r h1 = some (none, h1) := hs2
      rw [e1] at hrun
      simp only [Option.some.injEq, Prod.mk.injEq] at hrun
      obtain ⟨hres, hheap⟩ := hrun
      subst hres hheap
      exact ⟨none, h0, e2, Heap.Extends.refl _, Heap.Extends.refl _, Or.inl ⟨rfl, rfl, rfl⟩⟩
    | some t =>
      obtain ⟨a1, h1b, e1, hext1, hr1⟩ :
          ∃ a h2, Ptr.BuildTree (freshBuilder es ctor) fuel r h0 = some (some a, h2) ∧
            Heap.Extends h0 h2 ∧ Reifies h0.length h2 t a := hs1
      obtain ⟨a2, h2, e2, hext2, hr2⟩ :
          ∃ a h2, Ptr.BuildTree (freshBuilder es ctor) fuel r h1 = some (some a, h2) ∧
            Heap.Extends h1 h2 ∧ Reifies h1.length h2 t a := hs2
      rw [e1] at hrun
      simp only [Option.some.injEq, Prod.mk.injEq] at hrun
      obtain ⟨hres, hheap⟩ := hrun
      subst hres hheap
      have hr1b : Reifies h0.length h2 t a1 :=
        Reifies.transport le_rfl (fun a y _ hy => hext2 a y hy) t a1 hr1
      have hlt : a1 < h1b.length := by
        cases t with
        | node l ts =>
          simp only [Reifies] at hr1
          obtain ⟨_, cs, hget, _⟩ := hr1
          exact (List.getElem?_eq_some.1 hget).1
      have hge : h1b.length ≤ a2 := by
        cases t with
        | node l ts =>
          simp only [Reifies] at hr2
          exact hr2.1
      exact ⟨some a2, h2, e2, hext1, hext2,
        Or.inr ⟨a1, a2, t, rfl, rfl, by omega, rfl, hr1, hr1b, hr2⟩⟩

theorem BuildTree_twice_deep_equal_witness :
    ∃ res2 h2,
      Ptr.BuildTree (freshBuilder exampleTreeBuilder.dataEntities nameCtor) 4 1
        exampleHeap1 = some (res2, h2) ∧
      Heap.Extends [] exampleHeap1 ∧ Heap.Extends exampleHeap1 h2 ∧
      (((some 0 : Option Nat) = none ∧ res2 = none ∧
          (BuildTree (valueBuilder exampleTreeBuilder.dataEntities nameCtor) 4 1).map
            Prod.fst = some none) ∨
        ∃ a1 a2 t, (some 0 : Option Nat) = some a1 ∧ res2 = some a2 ∧ a1 ≠ a2 ∧
          (BuildTree (valueBuilder exampleTreeBuilder.dataEntities nameCtor) 4 1).map
            Prod.fst = some (some t) ∧
          Reifies ([] : Heap String).length exampleHeap1 t a1 ∧
          Reifies ([] : Heap String).length h2 t a1 ∧
          Reifies exampleHeap1.length h2 t a2) :=
  BuildTree_twice_deep_equal exampleTreeBuilder.dataEntities nameCtor 4 1 []
    (some 0) exampleHeap1 (by decide)

end TreeBuilder
